import Mathlib

/-!
Verification of the chunking / keyword-summary / retrieval core of the
Multi-Agent-NN-Medicine repository.

The definitions below are shallow embeddings of the Python functions in
`src/scripts/data_processing/chunkify.py`,
`src/scripts/data_processing/make_summaries_and_keywords.py` and
`src/multi-agent_system/orchestrator.py`.  Strings are modelled as `List Char`,
file contents byte-for-byte (one `Char` per Python character), and the
`while` loops of the source are modelled with explicit fuel, with fuel
sufficiency proved separately.
-/

/-! ## Chunker (`chunkify.py`) -/

def CHUNK_WORDS : Nat := 200

def OVERLAP_WORDS : Nat := 30

/-- Body of the `while start < n` loop of `make_chunks` (chunkify.py, lines 39-49):
`end = min(start + chunk_words, n)`, append `words[start:end]`, stop when
`end == n`, otherwise `start += chunk_words - overlap_words`.
`none` means the fuel ran out before the loop finished. -/
def make_chunks_loop (c o : Nat) (words : List α) : Nat → Nat → Option (List (List α))
  | 0, _ => none
  | fuel + 1, start =>
    if start < words.length then
      if words.length ≤ start + c then some [(words.drop start).take c]
      else (make_chunks_loop c o words fuel (start + (c - o))).map
        (fun t => ((words.drop start).take c) :: t)
    else some []

/-- The chunk list produced by the loop; fuel `words.length + 1` always
suffices (`make_chunks_loop_isSome`). -/
def chunksOf (c o : Nat) (words : List α) : List (List α) :=
  (make_chunks_loop c o words (words.length + 1) 0).getD []

/-- `make_chunks` (chunkify.py, lines 31-51), including its three validation
checks, which raise `ValueError` in the source. -/
def make_chunks (words : List α) (chunk_words overlap_words : Int) :
    Except String (List (List α)) :=
  if chunk_words ≤ 0 then .error "CHUNK_WORDS must be > 0"
  else if overlap_words < 0 then .error "OVERLAP_WORDS must be >= 0"
  else if chunk_words ≤ overlap_words then .error "OVERLAP_WORDS must be < CHUNK_WORDS"
  else .ok (chunksOf chunk_words.toNat overlap_words.toNat words)

/-- Chunk selection of `process_one_file` (chunkify.py, lines 69-72):
a single chunk when `len(words) <= CHUNK_WORDS`, else `make_chunks`. -/
def processChunks (words : List α) : List (List α) :=
  if words.length ≤ CHUNK_WORDS then [words]
  else chunksOf CHUNK_WORDS OVERLAP_WORDS words

/-- De-overlapping: keep the first chunk whole and drop the leading `o`
words of every later chunk, then concatenate. -/
def deOverlap (o : Nat) : List (List α) → List α
  | [] => []
  | c :: rest => c ++ (rest.map (fun ch => ch.drop o)).flatten

theorem make_chunks_loop_isSome (c o : Nat) (words : List α) :
    ∀ fuel start, o < c → words.length - start < fuel →
      (make_chunks_loop c o words fuel start).isSome := by
  intro fuel
  induction fuel with
  | zero => intro start _ h; omega
  | succ fuel ih =>
    intro start hoc hfuel
    simp only [make_chunks_loop]
    by_cases hs : start < words.length
    · simp only [hs, if_true]
      by_cases he : words.length ≤ start + c
      · simp [he]
      · simp only [he, if_false]
        have hrec := ih (start + (c - o)) hoc (by omega)
        cases hm : make_chunks_loop c o words fuel (start + (c - o)) with
        | none => rw [hm] at hrec; simp at hrec
        | some t => simp [hm]
    · simp [hs]

theorem make_chunks_loop_cons (c o : Nat) (words : List α) (fuel start : Nat)
    (hoc : o < c) (hfuel : words.length - start < fuel) (hs : start < words.length) :
    ∃ t, make_chunks_loop c o words fuel start = some (((words.drop start).take c) :: t) := by
  cases fuel with
  | zero => omega
  | succ fuel =>
    simp only [make_chunks_loop, hs, if_true]
    by_cases he : words.length ≤ start + c
    · exact ⟨[], by simp [he]⟩
    · simp only [he, if_false]
      have hrec := make_chunks_loop_isSome c o words fuel (start + (c - o)) hoc (by omega)
      cases hm : make_chunks_loop c o words fuel (start + (c - o)) with
      | none => rw [hm] at hrec; simp at hrec
      | some t => exact ⟨t, by simp [hm]⟩

theorem make_chunks_loop_nil (c o : Nat) (words : List α) (fuel start : Nat)
    (hs : words.length ≤ start) :
    make_chunks_loop c o words (fuel + 1) start = some [] := by
  simp only [make_chunks_loop]
  simp [Nat.not_lt.mpr hs]

theorem make_chunks_loop_deOverlap (c o : Nat) (words : List α) :
    ∀ fuel start, o < c → words.length - start < fuel →
      deOverlap o ((make_chunks_loop c o words fuel start).getD []) = words.drop start := by
  intro fuel
  induction fuel with
  | zero => intro start _ h; omega
  | succ fuel ih =>
    intro start hoc hfuel
    simp only [make_chunks_loop]
    by_cases hs : start < words.length
    · simp only [hs, if_true]
      by_cases he : words.length ≤ start + c
      · simp only [he, if_true, Option.getD_some]
        simp only [deOverlap, List.map_nil, List.flatten_nil, List.append_nil]
        exact List.take_of_length_le (by simp; omega)
      · simp only [he, if_false]
        have hlt : words.length - (start + (c - o)) < fuel := by omega
        have hs' : start + (c - o) < words.length := by omega
        obtain ⟨t, ht⟩ := make_chunks_loop_cons c o words fuel (start + (c - o)) hoc hlt hs'
        have hIH := ih (start + (c - o)) hoc hlt
        rw [ht] at hIH ⊢
        simp only [Option.map_some', Option.getD_some] at hIH ⊢
        simp only [deOverlap] at hIH ⊢
        simp only [List.map_cons, List.flatten_cons]
        -- the head chunk of the recursive call has length > o
        have hheadlen : o ≤ ((words.drop (start + (c - o))).take c).length := by
          simp only [List.length_take, List.length_drop]
          omega
        have hsplit :
            ((words.drop (start + (c - o))).take c).drop o
              ++ (t.map (fun ch => ch.drop o)).flatten
            = (((words.drop (start + (c - o))).take c)
              ++ (t.map (fun ch => ch.drop o)).flatten).drop o := by
          rw [List.drop_append_of_le_length hheadlen]
        rw [hsplit, hIH]
        rw [List.drop_drop]
        have harith : start + (c - o) + o = start + c := by omega
        rw [harith]
        have : words.drop (start + c) = (words.drop start).drop c := by
          rw [List.drop_drop]
        rw [this, List.take_append_drop]
    · simp only [hs, if_false, Option.getD_some]
      simp only [deOverlap]
      have : words.drop start = [] := List.drop_eq_nil_of_le (by omega)
      rw [this]

theorem make_chunks_loop_length (c o : Nat) (words : List α) :
    ∀ fuel start, o < c → words.length - start < fuel → o < words.length - start →
      ((make_chunks_loop c o words fuel start).getD []).length
        = (words.length - start - o + (c - o) - 1) / (c - o) := by
  intro fuel
  induction fuel with
  | zero => intro start _ h _; omega
  | succ fuel ih =>
    intro start hoc hfuel hd
    simp only [make_chunks_loop]
    have hs : start < words.length := by omega
    simp only [hs, if_true]
    by_cases he : words.length ≤ start + c
    · simp only [he, if_true, Option.getD_some, List.length_cons, List.length_nil]
      have h1 : 1 * (c - o) ≤ words.length - start - o + (c - o) - 1 := by omega
      have h2 : words.length - start - o + (c - o) - 1 < (1 + 1) * (c - o) := by omega
      exact (Nat.div_eq_of_lt_le h1 h2).symm
    · simp only [he, if_false]
      have hlt : words.length - (start + (c - o)) < fuel := by omega
      have hd' : o < words.length - (start + (c - o)) := by omega
      have hIH := ih (start + (c - o)) hoc hlt hd'
      obtain ⟨t, ht⟩ := make_chunks_loop_cons c o words fuel (start + (c - o)) hoc hlt (by omega)
      rw [ht] at hIH ⊢
      simp only [Option.map_some', Option.getD_some, List.length_cons] at hIH ⊢
      rw [hIH]
      have hstep : (0:Nat) < c - o := by omega
      have harith : words.length - start - o + (c - o) - 1
          = (words.length - (start + (c - o)) - o + (c - o) - 1) + (c - o) := by omega
      rw [harith, Nat.add_div_right _ hstep]

theorem make_chunks_loop_mem_length (c o : Nat) (words : List α) :
    ∀ fuel start, o < c → words.length - start < fuel → o < words.length - start →
      ∀ ch ∈ (make_chunks_loop c o words fuel start).getD [], o < ch.length := by
  intro fuel
  induction fuel with
  | zero => intro start _ h _; omega
  | succ fuel ih =>
    intro start hoc hfuel hd
    simp only [make_chunks_loop]
    have hs : start < words.length := by omega
    simp only [hs, if_true]
    by_cases he : words.length ≤ start + c
    · simp only [he, if_true, Option.getD_some, List.mem_singleton]
      intro ch hch
      subst hch
      simp only [List.length_take, List.length_drop]
      omega
    · simp only [he, if_false]
      obtain ⟨t, ht⟩ := make_chunks_loop_cons c o words fuel (start + (c - o)) hoc
        (by omega) (by omega)
      rw [ht]
      simp only [Option.map_some', Option.getD_some, List.mem_cons]
      intro ch hch
      rcases hch with hch | hch
      · subst hch
        simp only [List.length_take, List.length_drop]
        omega
      · have := ih (start + (c - o)) hoc (by omega) (by omega)
        rw [ht] at this
        simp only [Option.getD_some] at this
        exact this ch (by simp [hch])

theorem make_chunks_loop_chain (c o : Nat) (words : List α) :
    ∀ fuel start, o < c → words.length - start < fuel →
      List.Chain' (fun a b => a.drop (a.length - o) = b.take o)
        ((make_chunks_loop c o words fuel start).getD []) := by
  intro fuel
  induction fuel with
  | zero => intro start _ h; omega
  | succ fuel ih =>
    intro start hoc hfuel
    simp only [make_chunks_loop]
    by_cases hs : start < words.length
    · simp only [hs, if_true]
      by_cases he : words.length ≤ start + c
      · simp [he]
      · simp only [he, if_false]
        obtain ⟨t, ht⟩ := make_chunks_loop_cons c o words fuel (start + (c - o)) hoc
          (by omega) (by omega)
        rw [ht]
        simp only [Option.map_some', Option.getD_some]
        have hchain := ih (start + (c - o)) hoc (by omega)
        rw [ht] at hchain
        simp only [Option.getD_some] at hchain
        refine List.chain'_cons.mpr ⟨?_, hchain⟩
        -- the adjacent-overlap relation between the chunk at `start` and the next one
        have hlen : ((words.drop start).take c).length = c := by
          simp only [List.length_take, List.length_drop]
          omega
        rw [hlen]
        rw [List.drop_take]
        have h1 : c - (c - o) = o := by omega
        rw [h1, List.drop_drop, List.take_take]
        have h2 : min o c = o := by omega
        rw [h2]
    · simp [hs]

theorem chunksOf_deOverlap (c o : Nat) (words : List α) (hoc : o < c) :
    deOverlap o (chunksOf c o words) = words := by
  unfold chunksOf
  have := make_chunks_loop_deOverlap c o words (words.length + 1) 0 hoc (by omega)
  simpa using this

theorem chunksOf_length (c o : Nat) (words : List α) (hoc : o < c)
    (hd : o < words.length) :
    (chunksOf c o words).length = (words.length - o + (c - o) - 1) / (c - o) := by
  unfold chunksOf
  have := make_chunks_loop_length c o words (words.length + 1) 0 hoc (by omega) (by omega)
  simpa using this

theorem chunksOf_chain (c o : Nat) (words : List α) (hoc : o < c) :
    List.Chain' (fun a b => a.drop (a.length - o) = b.take o) (chunksOf c o words) :=
  make_chunks_loop_chain c o words (words.length + 1) 0 hoc (by omega)

theorem chunksOf_mem_length (c o : Nat) (words : List α) (hoc : o < c)
    (hd : o < words.length) :
    ∀ ch ∈ chunksOf c o words, o < ch.length :=
  make_chunks_loop_mem_length c o words (words.length + 1) 0 hoc (by omega) (by omega)

theorem chunksOf_length_le_one (c o : Nat) (words : List α) (h : words.length ≤ c) :
    (chunksOf c o words).length ≤ 1 := by
  unfold chunksOf
  simp only [make_chunks_loop]
  by_cases h0 : 0 < words.length
  · simp [h0, h]
  · simp [h0]

set_option maxRecDepth 20000 in
/-- C3: for every word list, the chunker's windows (a single window when
`len(words) ≤ CHUNK_WORDS`, as in `process_one_file`), taken in order with
each window after the first stripped of its leading `OVERLAP_WORDS` words,
concatenate to exactly the original word sequence; the number of chunks is
`ceil((W - OVERLAP_WORDS) / (CHUNK_WORDS - OVERLAP_WORDS))` when
`W > CHUNK_WORDS`, else `1`; and a 450-word body yields exactly the three
windows `[0:200]`, `[170:370]`, `[340:450]`. -/
theorem chunker_coverage_and_count (words : List α) :
    deOverlap OVERLAP_WORDS (processChunks words) = words
    ∧ (processChunks words).length =
        (if CHUNK_WORDS < words.length
          then (words.length - OVERLAP_WORDS + (CHUNK_WORDS - OVERLAP_WORDS) - 1)
                / (CHUNK_WORDS - OVERLAP_WORDS)
          else 1)
    ∧ processChunks (List.range 450)
        = [(List.range 450).take 200, ((List.range 450).drop 170).take 200,
            (List.range 450).drop 340] := by
  have hC : CHUNK_WORDS = 200 := rfl
  have hO : OVERLAP_WORDS = 30 := rfl
  refine ⟨?_, ?_, ?_⟩
  · unfold processChunks
    by_cases h : words.length ≤ CHUNK_WORDS
    · simp [h, deOverlap]
    · simp only [h, if_false]
      exact chunksOf_deOverlap CHUNK_WORDS OVERLAP_WORDS words (by omega)
  · unfold processChunks
    by_cases h : words.length ≤ CHUNK_WORDS
    · simp [h, Nat.not_lt.mpr h]
    · have hlt : CHUNK_WORDS < words.length := Nat.not_le.mp h
      simp only [h, if_false, hlt, if_true]
      exact chunksOf_length CHUNK_WORDS OVERLAP_WORDS words (by omega) (by omega)
  · decide

/-- C4: for every word list and valid parameters `o < c`, the last `o` words
of every chunk equal the first `o` words of the following chunk, and when
more than one chunk is produced every chunk (the last included) has more
than `o` words. -/
theorem chunk_overlap_invariant (words : List α) (c o : Nat) (hoc : o < c) :
    (∀ i (hi : i + 1 < (chunksOf c o words).length),
        ((chunksOf c o words).get ⟨i, by omega⟩).drop
            (((chunksOf c o words).get ⟨i, by omega⟩).length - o)
          = ((chunksOf c o words).get ⟨i + 1, hi⟩).take o)
    ∧ (2 ≤ (chunksOf c o words).length → ∀ ch ∈ chunksOf c o words, o < ch.length) := by
  constructor
  · intro i hi
    exact (List.chain'_iff_get.mp (chunksOf_chain c o words hoc)) i (by omega)
  · intro h2 ch hch
    have hc : c < words.length := by
      by_contra hle
      have := chunksOf_length_le_one c o words (Nat.not_lt.mp hle)
      omega
    exact chunksOf_mem_length c o words hoc (by omega) ch hch

set_option maxRecDepth 20000 in
theorem chunk_overlap_invariant_witness :
    30 < 200
    ∧ 2 ≤ (chunksOf 200 30 (List.range 450)).length
    ∧ (∀ ch ∈ chunksOf 200 30 (List.range 450), 30 < ch.length) :=
  ⟨by decide, by decide,
    (chunk_overlap_invariant (List.range 450) 200 30 (by decide)).2 (by decide)⟩

/-- C7: `make_chunks` fails with a configuration error (producing no chunks)
exactly when its parameters are invalid: `chunk_words ≤ 0`, or
`overlap_words < 0`, or `overlap_words ≥ chunk_words`; for all valid
parameters it returns a result. -/
theorem make_chunks_error_iff (words : List α) (chunk_words overlap_words : Int) :
    (∃ msg, make_chunks words chunk_words overlap_words = .error msg)
      ↔ (chunk_words ≤ 0 ∨ overlap_words < 0 ∨ overlap_words ≥ chunk_words) := by
  unfold make_chunks
  split_ifs with h1 h2 h3
  · simp [h1]
  · simp [h2]
  · simp [ge_iff_le, h3]
  · simp only [ge_iff_le]
    constructor
    · intro ⟨msg, hmsg⟩
      exact absurd hmsg (by simp)
    · intro h
      rcases h with h | h | h
      · exact absurd h h1
      · exact absurd h h2
      · exact absurd h h3

/-- C10: the sliding-window loop of `make_chunks` terminates whenever the
validation preconditions hold: under `overlap_words < chunk_words` the start
offset strictly increases by `chunk_words - overlap_words ≥ 1` on every
iteration, so any fuel exceeding `len(words) - start` suffices and the
function is total under the precondition. -/
theorem make_chunks_loop_total (words : List α) (c o start fuel : Nat)
    (hoc : o < c) (hfuel : words.length - start < fuel) :
    (make_chunks_loop c o words fuel start).isSome = true :=
  make_chunks_loop_isSome c o words fuel start hoc hfuel

set_option maxRecDepth 20000 in
theorem make_chunks_loop_total_witness :
    30 < 200 ∧ (List.range 450).length - 0 < 451
      ∧ (make_chunks_loop 200 30 (List.range 450) 451 0).isSome = true :=
  ⟨by decide, by simp,
    make_chunks_loop_total (List.range 450) 200 30 0 451 (by decide) (by simp)⟩

/-! ## Python string primitives

Strings are modelled as `List Char`.  `isPySpace` is Python's whitespace
class (`str.isspace`, also the regex class `\s`), `isLineBreakChar` the set
of characters `str.splitlines` breaks on. -/

abbrev Str := List Char

def isPySpace (ch : Char) : Bool :=
  [9, 10, 11, 12, 13, 28, 29, 30, 31, 32, 133, 160, 5760,
    8232, 8233, 8239, 8287, 12288].contains ch.toNat
  || (8192 ≤ ch.toNat && ch.toNat ≤ 8202)

def isLineBreakChar (ch : Char) : Bool :=
  [10, 11, 12, 13, 28, 29, 30, 133, 8232, 8233].contains ch.toNat

/-- Python `str.lstrip()` (whitespace from the left). -/
def pyLstrip (s : Str) : Str := s.dropWhile isPySpace

/-- Python `str.rstrip()` (whitespace from the right). -/
def pyRstrip (s : Str) : Str := (s.reverse.dropWhile isPySpace).reverse

/-- Python `str.strip()`. -/
def pyStrip (s : Str) : Str := pyRstrip (pyLstrip s)

/-- Python `str.lower()` (ASCII, which is all the header logic compares). -/
def pyLower (s : Str) : Str := s.map Char.toLower

/-- First half of Python `str.splitlines()`: a `\r\n` pair counts as a
single break, so it is first replaced by a lone `\n`. -/
def normCRLF : Str → Str
  | [] => []
  | [ch] => [ch]
  | a :: b :: rest =>
    if a = '\r' ∧ b = '\n' then '\n' :: normCRLF rest
    else a :: normCRLF (b :: rest)

/-- Second half of Python `str.splitlines()`: split at every line-break
character; a trailing break produces no final empty line. -/
def splitBreaks : Str → Str → List Str
  | acc, [] => if acc = [] then [] else [acc.reverse]
  | acc, ch :: rest =>
    if isLineBreakChar ch then acc.reverse :: splitBreaks [] rest
    else splitBreaks (ch :: acc) rest

def pySplitlines (s : Str) : List Str := splitBreaks [] (normCRLF s)

/-- Python `str.split()` with no arguments (also `re.findall(r"\S+", ·)`):
maximal runs of non-whitespace characters. -/
def pyWordsAux : Str → Str → List Str
  | acc, [] => if acc = [] then [] else [acc.reverse]
  | acc, ch :: rest =>
    if isPySpace ch then
      if acc = [] then pyWordsAux [] rest else acc.reverse :: pyWordsAux [] rest
    else pyWordsAux (ch :: acc) rest

def pyWords (s : Str) : List Str := pyWordsAux [] s

/-- Python `re.sub(r"\s+", " ", s)`: first send every whitespace character
to a plain space, then merge adjacent spaces. -/
def squeezeSpaces : Str → Str
  | [] => []
  | [ch] => [ch]
  | a :: b :: rest =>
    if a = ' ' ∧ b = ' ' then squeezeSpaces (b :: rest)
    else a :: squeezeSpaces (b :: rest)

def collapseWS (s : Str) : Str :=
  squeezeSpaces (s.map (fun ch => if isPySpace ch then ' ' else ch))

example : pySplitlines "t\n\nx\n".toList = ["t".toList, [], "x".toList] := by decide

example : pyStrip "  ab c  ".toList = "ab c".toList := by decide

example : pyWords " a  bc ".toList = ["a".toList, "bc".toList] := by decide

example : collapseWS "a  b\t\nc".toList = "a b c".toList := by decide

/-! ## Keyword header logic (`make_summaries_and_keywords.py`) -/

/-- Python `line.strip() == ""`. -/
def isBlankLine (l : Str) : Bool := (pyStrip l).isEmpty

/-- Python `line.strip().lower().startswith("keywords:")`. -/
def isKwLine (l : Str) : Bool := "keywords:".toList.isPrefixOf (pyLower (pyStrip l))

/-- First loop of `_remove_leading_keyword_lines` (lines 71-73) and the inner
blank-skipping loop (lines 80-82): advance past blank lines while `i < scan`.
Returns the remaining lines and the updated index. -/
def skipBlanks (scan : Nat) : List Str → Nat → List Str × Nat
  | [], i => ([], i)
  | l :: rest, i =>
    if i < scan ∧ isBlankLine l then skipBlanks scan rest (i + 1)
    else (l :: rest, i)

/-- Outer loop of `_remove_leading_keyword_lines` (lines 76-82): consume one
KEYWORDS line, skip following blanks, repeat.  Each iteration consumes at
least one line, so fuel equal to the length of the original list suffices. -/
def kwLoop (scan : Nat) : Nat → List Str → Nat → Bool → List Str × Nat × Bool
  | 0, ls, i, removed => (ls, i, removed)
  | _ + 1, [], i, removed => ([], i, removed)
  | fuel + 1, l :: rest, i, removed =>
    if i < scan ∧ isKwLine l then
      let p := skipBlanks scan rest (i + 1)
      kwLoop scan fuel p.1 p.2 true
    else (l :: rest, i, removed)

/-- `_remove_leading_keyword_lines(body_lines, scan_lines)` (lines 65-88):
returns `body_lines[i:]` when at least one KEYWORDS line was removed,
`body_lines` unchanged otherwise. -/
def remove_leading_keyword_lines (body : List Str) (scan : Nat) : List Str :=
  let p := skipBlanks scan body 0
  let q := kwLoop scan body.length p.1 p.2 false
  if q.2.2 then q.1 else body

/-- `_strip_existing_keywords_header` (lines 91-105). -/
def strip_existing_keywords_header : List Str → List Str
  | [] => []
  | title :: body => title :: remove_leading_keyword_lines body 40

def TOP_K_KEYWORDS : Nat := 15

/-- `DEFAULT_KEYWORDS` (lines 20-36). -/
def DEFAULT_KEYWORDS : List Str :=
  ["cardiology", "cardiovascular", "ecg", "myocardial infarction",
   "acute coronary syndrome", "ischemia", "arrhythmia", "heart failure",
   "troponin", "reperfusion", "st elevation", "st depression",
   "posterior mi", "stemi", "nstemi"].map String.toList

/-- Loop of `_sanitize_keywords` (lines 166-178): strip, drop empties and
literal keywords entries, dedupe via `seen`, break once `len(out) >= top_k`
(the break check runs after the append, at the end of the iteration). -/
def sanitizeAux (top_k : Nat) : List Str → List Str → List Str → List Str
  | [], out, _ => out
  | k :: rest, out, seenSet =>
    if pyStrip k = [] then sanitizeAux top_k rest out seenSet
    else if pyLower (pyStrip k) = "keywords".toList then sanitizeAux top_k rest out seenSet
    else if "keywords:".toList.isPrefixOf (pyLower (pyStrip k)) then
      sanitizeAux top_k rest out seenSet
    else if pyStrip k ∈ seenSet then
      if top_k ≤ out.length then out
      else sanitizeAux top_k rest out seenSet
    else
      if top_k ≤ (out ++ [pyStrip k]).length then out ++ [pyStrip k]
      else sanitizeAux top_k rest (out ++ [pyStrip k]) (pyStrip k :: seenSet)

/-- `_sanitize_keywords` (lines 159-182): the loop result, or the default
list capped at `top_k` when the loop kept nothing. -/
def sanitize_keywords (kws : List Str) (top_k : Nat) : List Str :=
  if sanitizeAux top_k kws [] [] = [] then DEFAULT_KEYWORDS.take top_k
  else sanitizeAux top_k kws [] []

/-- The `KEYWORDS:` header line built by `_rewrite_chunk_with_keywords`
(lines 302-303): `"KEYWORDS: " + ", ".join(_sanitize_keywords(keywords, TOP_K_KEYWORDS))`. -/
def kwLineOf (keywords : List Str) : Str :=
  "KEYWORDS: ".toList
    ++ List.intercalate ", ".toList (sanitize_keywords keywords TOP_K_KEYWORDS)

/-- `_rewrite_chunk_with_keywords` (lines 290-307), as a pure function from
the existing artifact content and the keyword set to the new content (the
source reads and rewrites the file in place; an empty line list leaves the
artifact untouched).  `_strip_existing_keywords_header` is inlined on the
non-empty case: it keeps line 1 as the title and strips the body with
`scan_lines = 40`; the rewrite then strips the remaining body again with
`scan_lines = 60` and rebuilds `[title, kw_line, ""] + body`, joined with
newlines, right-stripped, plus one trailing newline. -/
def rewrite_chunk_with_keywords (content : Str) (keywords : List Str) : Str :=
  match pySplitlines content with
  | [] => content
  | t :: body0 =>
    pyRstrip (List.intercalate "\n".toList
        ((if pyStrip t = [] then "Untitled".toList else pyStrip t)
          :: kwLineOf keywords :: []
          :: remove_leading_keyword_lines (remove_leading_keyword_lines body0 40) 60))
      ++ "\n".toList

example :
    rewrite_chunk_with_keywords "t\n\nx\n".toList ["foo".toList]
      = "t\nKEYWORDS: foo\n\n\nx\n".toList := by decide

example :
    rewrite_chunk_with_keywords "t\nKEYWORDS: foo\n\n\nx\n".toList ["foo".toList]
      = "t\nKEYWORDS: foo\n\nx\n".toList := by decide

example : sanitize_keywords ["a".toList] 0 = ["a".toList] := by decide

example :
    remove_leading_keyword_lines
        (remove_leading_keyword_lines (List.replicate 61 "KEYWORDS: x".toList) 60) 60
      ≠ remove_leading_keyword_lines (List.replicate 61 "KEYWORDS: x".toList) 60 := by decide

/-! ## Facts about the string primitives -/

theorem pyRstrip_pre (s : Str) : pyRstrip s <+: s := by
  have h := List.dropWhile_suffix (l := s.reverse) (p := isPySpace)
  have h2 := List.reverse_prefix.mpr h
  simpa [pyRstrip] using h2

theorem pyRstrip_eq_nil_iff (s : Str) : pyRstrip s = [] ↔ ∀ c ∈ s, isPySpace c := by
  unfold pyRstrip
  rw [List.reverse_eq_nil_iff, List.dropWhile_eq_nil_iff]
  constructor
  · intro h c hc; exact h c (by simpa using hc)
  · intro h c hc; exact h c (by simpa using hc)

theorem pyStrip_eq_nil_iff (s : Str) : pyStrip s = [] ↔ ∀ c ∈ s, isPySpace c := by
  unfold pyStrip pyLstrip
  rw [pyRstrip_eq_nil_iff]
  constructor
  · intro h c hc
    have hsplit := List.takeWhile_append_dropWhile (p := isPySpace) (l := s)
    have : c ∈ s.takeWhile isPySpace ++ s.dropWhile isPySpace := by rw [hsplit]; exact hc
    rcases List.mem_append.mp this with h1 | h2
    · exact List.mem_takeWhile_imp h1
    · exact h c h2
  · intro h c hc
    exact h c ((List.dropWhile_suffix isPySpace).subset hc)

theorem dropWhile_dropWhile (p : α → Bool) (l : List α) :
    (l.dropWhile p).dropWhile p = l.dropWhile p := by
  cases h : l.dropWhile p with
  | nil => rfl
  | cons a t =>
    have ha : p a = false := by
      have h2 := List.head?_dropWhile_not p l
      rw [h] at h2; simpa using h2
    simp [List.dropWhile_cons, ha]

theorem pyRstrip_idem (s : Str) : pyRstrip (pyRstrip s) = pyRstrip s := by
  unfold pyRstrip
  rw [List.reverse_reverse, dropWhile_dropWhile]

theorem pyStrip_head_not_space {s : Str} {h : Char} {t : Str}
    (heq : pyStrip s = h :: t) : isPySpace h = false := by
  obtain ⟨r, hr⟩ := pyRstrip_pre (pyLstrip s)
  rw [show pyRstrip (pyLstrip s) = h :: t from heq] at hr
  have h2 := List.head?_dropWhile_not isPySpace s
  have h3 : pyLstrip s = h :: (t ++ r) := by rw [← hr]; simp
  unfold pyLstrip at h3
  rw [h3] at h2
  simpa using h2

theorem pyLstrip_of_head {c : Char} (hns : isPySpace c = false) (t : Str) :
    pyLstrip (c :: t) = c :: t := by
  simp [pyLstrip, List.dropWhile_cons, hns]

theorem pyStrip_idem (s : Str) : pyStrip (pyStrip s) = pyStrip s := by
  cases h : pyStrip s with
  | nil => decide
  | cons a t =>
    have ha := pyStrip_head_not_space h
    show pyStrip (a :: t) = a :: t
    unfold pyStrip
    rw [pyLstrip_of_head ha]
    calc pyRstrip (a :: t) = pyRstrip (pyRstrip (pyLstrip s)) := by
          unfold pyStrip at h; rw [h]
      _ = pyRstrip (pyLstrip s) := pyRstrip_idem _
      _ = a :: t := h

theorem pyRstrip_append (a b : Str) :
    pyRstrip (a ++ b) = if pyRstrip b = [] then pyRstrip a else a ++ pyRstrip b := by
  unfold pyRstrip
  rw [List.reverse_append, List.dropWhile_append]
  by_cases h : (b.reverse.dropWhile isPySpace).isEmpty
  · have h2 : (b.reverse.dropWhile isPySpace).reverse = [] := by
      rw [List.isEmpty_iff] at h; rw [h]; rfl
    rw [if_pos h, if_pos h2]
  · have h2 : ¬ (b.reverse.dropWhile isPySpace).reverse = [] := by
      rw [List.isEmpty_iff] at h
      simpa using h
    rw [if_neg h, if_neg h2, List.reverse_append, List.reverse_reverse]

theorem pyRstrip_append_ws {w : Str} (hw : ∀ c ∈ w, isPySpace c) (a : Str) :
    pyRstrip (a ++ w) = pyRstrip a := by
  rw [pyRstrip_append, if_pos ((pyRstrip_eq_nil_iff w).mpr hw)]

theorem exists_rstrip_decomp (s : Str) :
    ∃ w, s = pyRstrip s ++ w ∧ ∀ c ∈ w, isPySpace c := by
  refine ⟨(s.reverse.takeWhile isPySpace).reverse, ?_, ?_⟩
  · conv_lhs => rw [← s.reverse_reverse,
      ← List.takeWhile_append_dropWhile (p := isPySpace) (l := s.reverse)]
    rw [List.reverse_append]
    rfl
  · intro c hc
    exact List.mem_takeWhile_imp (by simpa using hc)

theorem pyStrip_append_ws {w : Str} (hw : ∀ c ∈ w, isPySpace c) (a : Str) :
    pyStrip (a ++ w) = pyStrip a := by
  unfold pyStrip pyLstrip
  rw [List.dropWhile_append]
  by_cases h : (a.dropWhile isPySpace).isEmpty
  · rw [if_pos h]
    have h2 : w.dropWhile isPySpace = [] := List.dropWhile_eq_nil_iff.mpr hw
    rw [h2, List.isEmpty_iff] at *
    rw [h]
  · rw [if_neg h]
    exact pyRstrip_append_ws hw _

theorem pyStrip_pyRstrip (s : Str) : pyStrip (pyRstrip s) = pyStrip s := by
  obtain ⟨w, hdecomp, hw⟩ := exists_rstrip_decomp s
  conv_rhs => rw [hdecomp]
  rw [pyStrip_append_ws hw]

theorem ws_toLower {c : Char} (h : isPySpace c = true) : c.toLower = c := by
  simp only [isPySpace, List.contains_cons, List.contains_nil, beq_iff_eq,
    Bool.or_eq_true, Bool.and_eq_true, decide_eq_true_eq, Bool.or_false] at h
  simp only [Char.toLower]
  rw [if_neg]
  omega

theorem dropWhile_eq_self_of (p : α → Bool) {l : List α}
    (h : ∀ c ∈ l, p c = false) : l.dropWhile p = l := by
  cases l with
  | nil => rfl
  | cons a t => simp [List.dropWhile_cons, h a (by simp)]

theorem isBlank_not_kw {l : Str} (h : isBlankLine l = true) : isKwLine l = false := by
  simp only [isBlankLine, List.isEmpty_iff] at h
  simp [isKwLine, h, pyLower, List.isPrefixOf]

theorem isKw_pyStrip (l : Str) : isKwLine (pyStrip l) = isKwLine l := by
  simp [isKwLine, pyStrip_idem]

theorem isKw_pyRstrip (l : Str) : isKwLine (pyRstrip l) = isKwLine l := by
  simp [isKwLine, pyStrip_pyRstrip]

theorem isBlank_pyRstrip (l : Str) : isBlankLine (pyRstrip l) = isBlankLine l := by
  simp [isBlankLine, pyStrip_pyRstrip]

theorem isKw_marker (x : Str) : isKwLine ("KEYWORDS: ".toList ++ x) = true := by
  have hsplit : "KEYWORDS: ".toList ++ x = "KEYWORDS:".toList ++ (" ".toList ++ x) := by
    rw [← List.append_assoc]; rfl
  rw [hsplit]
  unfold isKwLine pyStrip
  have hhead : "KEYWORDS:".toList ++ (" ".toList ++ x)
      = 'K' :: ("EYWORDS:".toList ++ (" ".toList ++ x)) := rfl
  rw [hhead, pyLstrip_of_head (by decide), ← hhead]
  rw [pyRstrip_append]
  by_cases h : pyRstrip (" ".toList ++ x) = []
  · rw [if_pos h]
    decide
  · rw [if_neg h]
    unfold pyLower
    rw [List.map_append]
    have hlow : "KEYWORDS:".toList.map Char.toLower = "keywords:".toList := by decide
    rw [hlow]
    rw [List.isPrefixOf_iff_prefix]
    exact List.prefix_append _ _

theorem literal_kw_imp {l : Str}
    (h : "keywords:".toList.isPrefixOf (pyLower l) = true) : isKwLine l = true := by
  rw [List.isPrefixOf_iff_prefix] at h
  obtain ⟨r, hr⟩ := h
  have hlen : 9 ≤ l.length := by
    have hl := congrArg List.length hr
    simp [pyLower] at hl
    omega
  have hsplit : l = l.take 9 ++ l.drop 9 := (List.take_append_drop 9 l).symm
  have hmap : (l.take 9).map Char.toLower ++ (l.drop 9).map Char.toLower
      = "keywords:".toList ++ r := by
    rw [← List.map_append, ← hsplit]
    exact hr.symm
  have hfirst : (l.take 9).map Char.toLower = "keywords:".toList :=
    (List.append_inj hmap (by simp; omega)).1
  -- every character of the 9-character prefix is non-whitespace
  have hnotws : ∀ c ∈ l.take 9, isPySpace c = false := by
    intro c hc
    by_contra hws
    have hws2 : isPySpace c = true := by
      cases h9 : isPySpace c
      · exact absurd h9 hws
      · rfl
    have hmem : c.toLower ∈ "keywords:".toList := by
      rw [← hfirst]; exact List.mem_map_of_mem _ hc
    rw [ws_toLower hws2] at hmem
    have : ∀ ch ∈ "keywords:".toList, isPySpace ch = false := by decide
    rw [this c hmem] at hws2
    exact absurd hws2 (by simp)
  have h9ne : l.take 9 ≠ [] := by
    intro hnil
    have h0 : (l.take 9).length = 0 := by rw [hnil]; rfl
    rw [List.length_take] at h0
    omega
  obtain ⟨c0, t0, hct⟩ : ∃ c0 t0, l.take 9 = c0 :: t0 := by
    cases hc : l.take 9 with
    | nil => exact absurd hc h9ne
    | cons a b => exact ⟨a, b, rfl⟩
  unfold isKwLine pyStrip
  have hl2 : l = c0 :: (t0 ++ l.drop 9) := by
    conv_lhs => rw [hsplit, hct]
    rfl
  rw [hl2, pyLstrip_of_head (hnotws c0 (by rw [hct]; simp)), ← hl2]
  conv_lhs => rw [hsplit, hct]
  rw [show (c0 :: t0) ++ l.drop 9 = c0 :: t0 ++ l.drop 9 from rfl, ← hct]
  rw [pyRstrip_append]
  by_cases hb : pyRstrip (l.drop 9) = []
  · rw [if_pos hb]
    have : pyRstrip (l.take 9) = l.take 9 := by
      unfold pyRstrip
      rw [dropWhile_eq_self_of _ (by intro c hc; exact hnotws c (by simpa using hc)),
        List.reverse_reverse]
    rw [this]
    unfold pyLower
    rw [hfirst, List.isPrefixOf_iff_prefix]
  · rw [if_neg hb]
    unfold pyLower
    rw [List.map_append, hfirst, List.isPrefixOf_iff_prefix]
    exact List.prefix_append _ _

/-! ## Keyword sanitization (C6) -/

theorem sanitizeAux_length_le (top_k : Nat) :
    ∀ l out seenSet, out.length < top_k →
      (sanitizeAux top_k l out seenSet).length ≤ top_k := by
  intro l
  induction l with
  | nil => intro out seenSet h; simpa only [sanitizeAux] using Nat.le_of_lt h
  | cons k rest ih =>
    intro out seenSet h
    simp only [sanitizeAux]
    by_cases h1 : pyStrip k = []
    · simp only [if_pos h1]; exact ih out seenSet h
    · simp only [if_neg h1]
      by_cases h2 : pyLower (pyStrip k) = "keywords".toList
      · simp only [if_pos h2]; exact ih out seenSet h
      · simp only [if_neg h2]
        by_cases h3 : "keywords:".toList.isPrefixOf (pyLower (pyStrip k)) = true
        · simp only [if_pos h3]; exact ih out seenSet h
        · simp only [if_neg h3]
          by_cases hmem : pyStrip k ∈ seenSet
          · simp only [if_pos hmem, if_neg (show ¬ top_k ≤ out.length by omega)]
            exact ih out seenSet h
          · simp only [if_neg hmem]
            by_cases hb : top_k ≤ (out ++ [pyStrip k]).length
            · simp only [if_pos hb]
              simp only [List.length_append, List.length_singleton] at hb ⊢
              omega
            · simp only [if_neg hb]
              refine ih (out ++ [pyStrip k]) (pyStrip k :: seenSet) ?_
              simp only [List.length_append, List.length_singleton] at hb ⊢
              omega

theorem sanitizeAux_nodup (top_k : Nat) :
    ∀ l out seenSet, out.Nodup → (∀ x ∈ out, x ∈ seenSet) →
      (sanitizeAux top_k l out seenSet).Nodup := by
  intro l
  induction l with
  | nil => intro out seenSet h _; simpa only [sanitizeAux] using h
  | cons k rest ih =>
    intro out seenSet hnd hsub
    simp only [sanitizeAux]
    by_cases h1 : pyStrip k = []
    · simp only [if_pos h1]; exact ih out seenSet hnd hsub
    · simp only [if_neg h1]
      by_cases h2 : pyLower (pyStrip k) = "keywords".toList
      · simp only [if_pos h2]; exact ih out seenSet hnd hsub
      · simp only [if_neg h2]
        by_cases h3 : "keywords:".toList.isPrefixOf (pyLower (pyStrip k)) = true
        · simp only [if_pos h3]; exact ih out seenSet hnd hsub
        · simp only [if_neg h3]
          by_cases hmem : pyStrip k ∈ seenSet
          · simp only [if_pos hmem]
            by_cases hb : top_k ≤ out.length
            · simp only [if_pos hb]; exact hnd
            · simp only [if_neg hb]; exact ih out seenSet hnd hsub
          · simp only [if_neg hmem]
            have hnd2 : (out ++ [pyStrip k]).Nodup := by
              rw [List.nodup_append]
              refine ⟨hnd, List.nodup_singleton _, ?_⟩
              intro a ha hb
              simp only [List.mem_singleton] at hb
              exact hmem (hb ▸ hsub a ha)
            have hsub2 : ∀ x ∈ out ++ [pyStrip k], x ∈ pyStrip k :: seenSet := by
              intro x hx
              rcases List.mem_append.mp hx with hx | hx
              · exact List.mem_cons_of_mem _ (hsub x hx)
              · simp only [List.mem_singleton] at hx
                simp [hx]
            by_cases hb : top_k ≤ (out ++ [pyStrip k]).length
            · simp only [if_pos hb]; exact hnd2
            · simp only [if_neg hb]
              exact ih (out ++ [pyStrip k]) (pyStrip k :: seenSet) hnd2 hsub2

theorem sanitizeAux_good (top_k : Nat) :
    ∀ l out seenSet,
      (∀ x ∈ out, pyLower x ≠ "keywords".toList
        ∧ "keywords:".toList.isPrefixOf (pyLower x) = false
        ∧ x ≠ [] ∧ pyStrip x = x) →
      ∀ x ∈ sanitizeAux top_k l out seenSet,
        pyLower x ≠ "keywords".toList
          ∧ "keywords:".toList.isPrefixOf (pyLower x) = false
          ∧ x ≠ [] ∧ pyStrip x = x := by
  intro l
  induction l with
  | nil => intro out seenSet h; simpa only [sanitizeAux] using h
  | cons k rest ih =>
    intro out seenSet hout
    simp only [sanitizeAux]
    by_cases h1 : pyStrip k = []
    · simp only [if_pos h1]; exact ih out seenSet hout
    · simp only [if_neg h1]
      by_cases h2 : pyLower (pyStrip k) = "keywords".toList
      · simp only [if_pos h2]; exact ih out seenSet hout
      · simp only [if_neg h2]
        by_cases h3 : "keywords:".toList.isPrefixOf (pyLower (pyStrip k)) = true
        · simp only [if_pos h3]; exact ih out seenSet hout
        · simp only [if_neg h3]
          have hknew : pyLower (pyStrip k) ≠ "keywords".toList
              ∧ "keywords:".toList.isPrefixOf (pyLower (pyStrip k)) = false
              ∧ pyStrip k ≠ [] ∧ pyStrip (pyStrip k) = pyStrip k := by
            refine ⟨h2, ?_, h1, pyStrip_idem k⟩
            cases hp : "keywords:".toList.isPrefixOf (pyLower (pyStrip k))
            · rfl
            · exact absurd hp h3
          have hout2 : ∀ x ∈ out ++ [pyStrip k], pyLower x ≠ "keywords".toList
              ∧ "keywords:".toList.isPrefixOf (pyLower x) = false
              ∧ x ≠ [] ∧ pyStrip x = x := by
            intro x hx
            rcases List.mem_append.mp hx with hx | hx
            · exact hout x hx
            · simp only [List.mem_singleton] at hx
              subst hx
              exact hknew
          by_cases hmem : pyStrip k ∈ seenSet
          · simp only [if_pos hmem]
            by_cases hb : top_k ≤ out.length
            · simp only [if_pos hb]; exact hout
            · simp only [if_neg hb]; exact ih out seenSet hout
          · simp only [if_neg hmem]
            by_cases hb : top_k ≤ (out ++ [pyStrip k]).length
            · simp only [if_pos hb]; exact hout2
            · simp only [if_neg hb]
              exact ih (out ++ [pyStrip k]) (pyStrip k :: seenSet) hout2

theorem default_keywords_good :
    DEFAULT_KEYWORDS.Nodup
    ∧ ∀ x ∈ DEFAULT_KEYWORDS, pyLower x ≠ "keywords".toList
        ∧ "keywords:".toList.isPrefixOf (pyLower x) = false := by decide

/-- C6 (amended): `sanitize(list, k)` returns at most `k` entries when
`k ≥ 1` (for `k = 0` one entry can be returned, see the counterexample),
with no duplicates, no entry equal to "keywords" case-insensitively, no
entry whose lower-casing starts with "keywords:", and a non-empty result
whenever `k > 0`. -/
theorem sanitize_keywords_spec (kws : List Str) (k : Nat) :
    (1 ≤ k → (sanitize_keywords kws k).length ≤ k)
    ∧ (sanitize_keywords kws k).Nodup
    ∧ (∀ x ∈ sanitize_keywords kws k,
        pyLower x ≠ "keywords".toList
          ∧ "keywords:".toList.isPrefixOf (pyLower x) = false)
    ∧ (0 < k → sanitize_keywords kws k ≠ []) := by
  unfold sanitize_keywords
  by_cases hout : sanitizeAux k kws [] [] = []
  · rw [if_pos hout]
    refine ⟨?_, ?_, ?_, ?_⟩
    · intro _
      rw [List.length_take]
      omega
    · exact List.Nodup.sublist (List.take_sublist _ _) default_keywords_good.1
    · intro x hx
      exact default_keywords_good.2 x (List.take_subset _ _ hx)
    · intro hk hnil
      have hlen0 : (DEFAULT_KEYWORDS.take k).length = 0 := by rw [hnil]; rfl
      rw [List.length_take] at hlen0
      have hd : DEFAULT_KEYWORDS.length = 15 := by decide
      omega
  · rw [if_neg hout]
    refine ⟨?_, ?_, ?_, ?_⟩
    · intro hk
      exact sanitizeAux_length_le k kws [] [] (by simpa using hk)
    · exact sanitizeAux_nodup k kws [] [] List.nodup_nil (by intro x hx; cases hx)
    · intro x hx
      have := sanitizeAux_good k kws [] [] (by intro x hx; cases hx) x hx
      exact ⟨this.1, this.2.1⟩
    · intro _
      exact hout

theorem sanitize_keywords_spec_witness :
    1 ≤ 3 ∧ (0:Nat) < 3
    ∧ (sanitize_keywords ["a".toList, " a ".toList, "keywords".toList] 3).length ≤ 3
    ∧ sanitize_keywords ["a".toList, " a ".toList, "keywords".toList] 3 ≠ [] :=
  ⟨by decide, by decide,
    (sanitize_keywords_spec ["a".toList, " a ".toList, "keywords".toList] 3).1 (by decide),
    (sanitize_keywords_spec ["a".toList, " a ".toList, "keywords".toList] 3).2.2.2 (by decide)⟩

/-- C6 counterexample: with `k = 0` and input `["a"]`, the loop appends "a"
before checking the cap (`if len(out) >= top_k: break` runs after the
append), so the result has one entry: more than `k = 0` entries. -/
theorem sanitize_keywords_cap_counterexample :
    ¬ ((sanitize_keywords ["a".toList] 0).length ≤ 0) := by decide

/-! ## Orchestrator dispatch (`orchestrator.py`) -/

/-- Post-processing of the routing classifier output in
`MedicalOrchestrator.route` (orchestrator.py, line 38):
`response.output_text.strip().lower()`. -/
def routeNormalize (raw : Str) : Str := pyLower (pyStrip raw)

/-- Dispatch of `MedicalOrchestrator.answer` (orchestrator.py, lines 42-52),
with the three specialist agents abstracted as functions from question to
answer. -/
def orchestratorAnswer (specialist : Str)
    (cardio derma surg : Str → Str) (question : Str) : Str :=
  if specialist = "cardiologist".toList then cardio question
  else if specialist = "dermatologist".toList then derma question
  else if specialist = "surgeon".toList then surg question
  else "Could not determine the specialist.".toList

/-- C8: whenever the normalized routing-classifier output is none of the
three recognized specialist labels, `answer` returns the fixed string
"Could not determine the specialist." for every choice of specialist agents
(so no specialist is queried and no exception is raised). -/
theorem orchestrator_unknown_specialist (raw question : Str)
    (cardio derma surg : Str → Str)
    (h1 : routeNormalize raw ≠ "cardiologist".toList)
    (h2 : routeNormalize raw ≠ "dermatologist".toList)
    (h3 : routeNormalize raw ≠ "surgeon".toList) :
    orchestratorAnswer (routeNormalize raw) cardio derma surg question
      = "Could not determine the specialist.".toList := by
  unfold orchestratorAnswer
  rw [if_neg h1, if_neg h2, if_neg h3]

theorem orchestrator_unknown_specialist_witness :
    routeNormalize " Podiatrist ".toList ≠ "cardiologist".toList
    ∧ routeNormalize " Podiatrist ".toList ≠ "dermatologist".toList
    ∧ routeNormalize " Podiatrist ".toList ≠ "surgeon".toList
    ∧ orchestratorAnswer (routeNormalize " Podiatrist ".toList)
        (fun q => q) (fun q => q) (fun q => q) "q".toList
      = "Could not determine the specialist.".toList :=
  ⟨by decide, by decide, by decide,
    orchestrator_unknown_specialist " Podiatrist ".toList "q".toList
      (fun q => q) (fun q => q) (fun q => q)
      (by decide) (by decide) (by decide)⟩

/-- C1: the Writer is not byte-for-byte idempotent.  On the artifact
`"t\n\nx\n"` (exactly the `title`, blank line, body shape that `chunkify.py`
writes), the first pass keeps the original blank body line because
`_remove_leading_keyword_lines` returns the body unchanged when no KEYWORDS
line was removed, so two blank lines follow the KEYWORDS line; the second
pass strips one of them, contradicting the intended "Keep exactly one empty
line after keywords" and the spec's byte-for-byte idempotence. -/
theorem rewrite_chunk_not_idempotent :
    rewrite_chunk_with_keywords
        (rewrite_chunk_with_keywords "t\n\nx\n".toList ["foo".toList]) ["foo".toList]
      ≠ rewrite_chunk_with_keywords "t\n\nx\n".toList ["foo".toList] := by decide

/-! ## Summary synthesizer (`make_summaries_and_keywords.py`) -/

def SUMMARY_SENTENCES_TARGET : Nat := 6

def SUMMARY_CHAR_LIMIT : Nat := 1200

/-- Sentence splitter of `_split_sentences` (lines 108-114): after collapsing
whitespace, `re.split(r"(?<=[.!?])\s+", text)` cuts at a space preceded by
terminal punctuation (runs of whitespace are single spaces at that point). -/
def sentBoundary : Str → Bool
  | p :: _ => p = '.' || p = '!' || p = '?'
  | [] => false

def splitSentAux : Str → Str → List Str
  | acc, [] => [acc.reverse]
  | acc, ch :: rest =>
    if isPySpace ch && sentBoundary acc then
      acc.reverse :: splitSentAux [] rest
    else splitSentAux (ch :: acc) rest

/-- `_split_sentences` (lines 108-114). -/
def split_sentences (text : Str) : List Str :=
  let t := pyStrip (collapseWS text)
  if t = [] then []
  else ((splitSentAux [] t).map pyStrip).filter (fun p => 20 ≤ p.length)

/-- Greedy sentence accumulation in `_fallback_summary` (lines 119-130):
skip word-less sentences, stop before a sentence that would exceed the word
budget unless nothing was collected yet, stop after `max_sentences`. -/
def greedyAcc (maxS maxW : Nat) : List Str → List Str → Nat → List Str
  | [], out, _ => out
  | s :: rest, out, wcount =>
    if pyWords s = [] then greedyAcc maxS maxW rest out wcount
    else if maxW < wcount + (pyWords s).length ∧ out ≠ [] then out
    else if maxS ≤ (out ++ [s]).length then out ++ [s]
    else greedyAcc maxS maxW rest (out ++ [s]) (wcount + (pyWords s).length)

/-- `_fallback_summary` (lines 117-136): the sentence path when it yields
something, else the first `min(len(words), max_words)` words of the text. -/
def fallback_summary (text : Str) (maxS maxW : Nat) : Str :=
  let sents := split_sentences text
  if sents ≠ [] ∧ greedyAcc maxS maxW sents [] 0 ≠ [] then
    List.intercalate " ".toList (greedyAcc maxS maxW sents [] 0)
  else
    List.intercalate " ".toList
      ((pyWords (pyStrip text)).take (min (pyWords (pyStrip text)).length maxW))

/-- Summary assembly of `_make_summary` (lines 244-250) on the stripped
text.  The second `_fallback_summary` call of the source (triggered when the
first result is empty or shorter than 12 words) has the exact same arguments
as the first, so it is the same expression here. -/
def summary_body (text : Str) : Str :=
  let s1 := pyStrip (fallback_summary text SUMMARY_SENTENCES_TARGET 180)
  let s2 := if s1 = [] ∨ (pyWords s1).length < 12 then
      pyStrip (fallback_summary text SUMMARY_SENTENCES_TARGET 180)
    else s1
  if s2 = [] then pyStrip (fallback_summary text 3 90) else s2

/-- Final truncation of `_make_summary` (lines 252-253):
`summary[:SUMMARY_CHAR_LIMIT].rstrip() + "…"` when over the limit. -/
def truncate_summary (s : Str) : Str :=
  if SUMMARY_CHAR_LIMIT < s.length then
    pyRstrip (s.take SUMMARY_CHAR_LIMIT) ++ ['…']
  else s

/-- `_make_summary` (lines 235-254). -/
def make_summary (title fullText : Str) : Str :=
  if pyStrip fullText = [] then
    (if pyStrip title = [] then "Untitled".toList else pyStrip title)
      ++ ". Brief note: source text is empty.".toList
  else truncate_summary (summary_body (pyStrip fullText))

example :
    make_summary "T".toList "".toList
      = "T. Brief note: source text is empty.".toList := by decide

example :
    make_summary "".toList "  ".toList
      = "Untitled. Brief note: source text is empty.".toList := by decide

example :
    make_summary "T".toList "Short sentence here for the test. Another one follows now.".toList
      = "Short sentence here for the test. Another one follows now.".toList := by decide

theorem intercalate_single (sep x : Str) : List.intercalate sep [x] = x := by
  simp [List.intercalate]

theorem intercalate_cons_cons (sep x y : Str) (zs : List Str) :
    List.intercalate sep (x :: y :: zs) = x ++ sep ++ List.intercalate sep (y :: zs) := by
  simp [List.intercalate, List.intersperse_cons₂, List.append_assoc]

theorem mem_intercalate_of_mem {sep : Str} {xs : List Str} {x : Str} {c : Char}
    (hx : x ∈ xs) (hc : c ∈ x) : c ∈ List.intercalate sep xs := by
  induction xs with
  | nil => cases hx
  | cons a rest ih =>
    cases rest with
    | nil =>
      rcases List.mem_cons.mp hx with h | h
      · subst h; rw [intercalate_single]; exact hc
      · cases h
    | cons b t =>
      rw [intercalate_cons_cons]
      rcases List.mem_cons.mp hx with h | h
      · subst h; simp [hc]
      · simp [ih h]

theorem strip_intercalate_ne_nil {sep : Str} {xs : List Str}
    (h : ∃ x ∈ xs, ∃ c ∈ x, isPySpace c = false) :
    pyStrip (List.intercalate sep xs) ≠ [] := by
  obtain ⟨x, hx, c, hc, hns⟩ := h
  intro hnil
  have := (pyStrip_eq_nil_iff _).mp hnil c (mem_intercalate_of_mem hx hc)
  rw [hns] at this
  exact absurd this (by simp)

theorem pyStrip_exists_not_space {s : Str} (h : pyStrip s ≠ []) :
    ∃ c ∈ pyStrip s, isPySpace c = false := by
  cases hs : pyStrip s with
  | nil => exact absurd hs h
  | cons a t => exact ⟨a, by simp, pyStrip_head_not_space hs⟩

theorem pyStrip_ne_nil_of_exists {s : Str} (h : ∃ c ∈ s, isPySpace c = false) :
    pyStrip s ≠ [] := by
  obtain ⟨c, hc, hns⟩ := h
  intro hnil
  have := (pyStrip_eq_nil_iff _).mp hnil c hc
  rw [hns] at this
  exact absurd this (by simp)

theorem pyWordsAux_sound :
    ∀ (s acc : Str), (∀ c ∈ acc, isPySpace c = false) →
      ∀ w ∈ pyWordsAux acc s, w ≠ [] ∧ ∀ c ∈ w, isPySpace c = false := by
  intro s
  induction s with
  | nil =>
    intro acc hacc w hw
    by_cases h : acc = ([] : Str)
    · simp [pyWordsAux, h] at hw
    · simp only [pyWordsAux, if_neg h, List.mem_singleton] at hw
      subst hw
      constructor
      · simpa using h
      · intro c hc; exact hacc c (by simpa using hc)
  | cons ch rest ih =>
    intro acc hacc w hw
    by_cases hsp : isPySpace ch = true
    · by_cases h : acc = ([] : Str)
      · simp only [pyWordsAux, hsp, if_true, h, if_pos rfl] at hw
        exact ih [] (by intro c hc; cases hc) w (by simpa [h] using hw)
      · simp only [pyWordsAux, hsp, if_true, if_neg h, List.mem_cons] at hw
        rcases hw with hw | hw
        · subst hw
          constructor
          · simpa using h
          · intro c hc; exact hacc c (by simpa using hc)
        · exact ih [] (by intro c hc; cases hc) w hw
    · have hsp2 : isPySpace ch = false := by
        cases hx : isPySpace ch
        · rfl
        · exact absurd hx hsp
      simp only [pyWordsAux, hsp2, if_neg (by simp : ¬ (false = true))] at hw
      exact ih (ch :: acc)
        (by intro c hc
            rcases List.mem_cons.mp hc with h | h
            · subst h; exact hsp2
            · exact hacc c h) w hw

theorem pyWordsAux_ne_nil :
    ∀ (s acc : Str), (∃ c ∈ s, isPySpace c = false) ∨ acc ≠ [] →
      pyWordsAux acc s ≠ [] := by
  intro s
  induction s with
  | nil =>
    intro acc h
    rcases h with ⟨c, hc, _⟩ | h
    · cases hc
    · simp [pyWordsAux, h]
  | cons ch rest ih =>
    intro acc h
    by_cases hsp : isPySpace ch = true
    · have hrest : (∃ c ∈ rest, isPySpace c = false) ∨ acc ≠ [] := by
        rcases h with ⟨c, hc, hns⟩ | h
        · rcases List.mem_cons.mp hc with rfl | hc
          · rw [hsp] at hns; exact absurd hns (by simp)
          · exact Or.inl ⟨c, hc, hns⟩
        · exact Or.inr h
      by_cases hanil : acc = ([] : Str)
      · subst hanil
        simp only [pyWordsAux, hsp, if_true, if_pos rfl]
        refine ih [] ?_
        rcases hrest with hr | hr
        · exact Or.inl hr
        · exact absurd rfl hr
      · simp [pyWordsAux, hsp, hanil]
    · have hsp2 : isPySpace ch = false := by
        cases hx : isPySpace ch
        · rfl
        · exact absurd hx hsp
      simp only [pyWordsAux, hsp2, if_neg (by simp : ¬ (false = true))]
      exact ih (ch :: acc) (Or.inr (by simp))

theorem pyWords_ne_nil {s : Str} (h : ∃ c ∈ s, isPySpace c = false) :
    pyWords s ≠ [] :=
  pyWordsAux_ne_nil s [] (Or.inl h)

theorem pyWords_sound {s w : Str} (hw : w ∈ pyWords s) :
    w ≠ [] ∧ ∀ c ∈ w, isPySpace c = false :=
  pyWordsAux_sound s [] (by intro c hc; cases hc) w hw

theorem split_sentences_mem {text x : Str} (hx : x ∈ split_sentences text) :
    20 ≤ x.length ∧ ∃ c ∈ x, isPySpace c = false := by
  unfold split_sentences at hx
  by_cases ht : pyStrip (collapseWS text) = []
  · simp [ht] at hx
  · simp only [if_neg ht, List.mem_filter, List.mem_map, decide_eq_true_eq] at hx
    obtain ⟨⟨p, _, hp⟩, hlen⟩ := hx
    refine ⟨hlen, ?_⟩
    cases hps : pyStrip p with
    | nil =>
      rw [← hp, hps] at hlen
      simp at hlen
    | cons a t =>
      exact ⟨a, by rw [← hp, hps]; simp, pyStrip_head_not_space hps⟩

theorem greedyAcc_ne_nil (maxS maxW : Nat) :
    ∀ (sents out : List Str) (wcount : Nat), out ≠ [] →
      greedyAcc maxS maxW sents out wcount ≠ [] := by
  intro sents
  induction sents with
  | nil => intro out wcount h; simpa [greedyAcc] using h
  | cons s rest ih =>
    intro out wcount h
    simp only [greedyAcc]
    by_cases h1 : pyWords s = []
    · simp only [if_pos h1]; exact ih out wcount h
    · simp only [if_neg h1]
      by_cases h2 : maxW < wcount + (pyWords s).length ∧ out ≠ []
      · simp only [if_pos h2]; exact h
      · simp only [if_neg h2]
        by_cases h3 : maxS ≤ (out ++ [s]).length
        · simp only [if_pos h3]; simp
        · simp only [if_neg h3]
          exact ih (out ++ [s]) (wcount + (pyWords s).length) (by simp)

theorem greedyAcc_subset (maxS maxW : Nat) :
    ∀ (sents out : List Str) (wcount : Nat) (x : Str),
      x ∈ greedyAcc maxS maxW sents out wcount → x ∈ out ∨ x ∈ sents := by
  intro sents
  induction sents with
  | nil => intro out wcount x hx; simp only [greedyAcc] at hx; exact Or.inl hx
  | cons s rest ih =>
    intro out wcount x hx
    simp only [greedyAcc] at hx
    by_cases h1 : pyWords s = []
    · rw [if_pos h1] at hx
      rcases ih out wcount x hx with h | h
      · exact Or.inl h
      · exact Or.inr (List.mem_cons_of_mem _ h)
    · rw [if_neg h1] at hx
      by_cases h2 : maxW < wcount + (pyWords s).length ∧ out ≠ []
      · rw [if_pos h2] at hx; exact Or.inl hx
      · rw [if_neg h2] at hx
        by_cases h3 : maxS ≤ (out ++ [s]).length
        · rw [if_pos h3] at hx
          rcases List.mem_append.mp hx with h | h
          · exact Or.inl h
          · simp only [List.mem_singleton] at h; subst h; exact Or.inr (by simp)
        · rw [if_neg h3] at hx
          rcases ih (out ++ [s]) (wcount + (pyWords s).length) x hx with h | h
          · rcases List.mem_append.mp h with h | h
            · exact Or.inl h
            · simp only [List.mem_singleton] at h; subst h; exact Or.inr (by simp)
          · exact Or.inr (List.mem_cons_of_mem _ h)

theorem fallback_summary_strip_ne_nil (text : Str) (maxS maxW : Nat)
    (hW : 1 ≤ maxW) (htext : ∃ c ∈ text, isPySpace c = false) :
    pyStrip (fallback_summary text maxS maxW) ≠ [] := by
  unfold fallback_summary
  by_cases hs : split_sentences text ≠ []
      ∧ greedyAcc maxS maxW (split_sentences text) [] 0 ≠ []
  · rw [if_pos hs]
    apply strip_intercalate_ne_nil
    cases hout : greedyAcc maxS maxW (split_sentences text) [] 0 with
    | nil => exact absurd hout hs.2
    | cons a t =>
      have ha : a ∈ greedyAcc maxS maxW (split_sentences text) [] 0 := by
        rw [hout]; simp
      rcases greedyAcc_subset maxS maxW (split_sentences text) [] 0 a ha with h | h
      · cases h
      · exact ⟨a, by simp, (split_sentences_mem h).2⟩
  · rw [if_neg hs]
    apply strip_intercalate_ne_nil
    have hstrip : pyStrip text ≠ [] := pyStrip_ne_nil_of_exists htext
    have hex : ∃ c ∈ pyStrip text, isPySpace c = false := pyStrip_exists_not_space hstrip
    have hwne : pyWords (pyStrip text) ≠ [] := pyWords_ne_nil hex
    cases hwords : pyWords (pyStrip text) with
    | nil => exact absurd hwords hwne
    | cons w ws =>
      refine ⟨w, ?_, ?_⟩
      · have hlen : (w :: ws).length = ws.length + 1 := by simp
        have hmin : 1 ≤ min (w :: ws).length maxW := by omega
        cases hm : min (w :: ws).length maxW with
        | zero => rw [hm] at hmin; omega
        | succ n =>
          rw [List.take_succ_cons]
          simp
      · have hw : w ∈ pyWords (pyStrip text) := by rw [hwords]; simp
        obtain ⟨hne, hchars⟩ := pyWords_sound hw
        cases hwc : w with
        | nil => exact absurd hwc hne
        | cons c cs => exact ⟨c, by simp, hchars c (by rw [hwc]; simp)⟩

theorem truncate_summary_length (s : Str) :
    (truncate_summary s).length ≤ SUMMARY_CHAR_LIMIT + 1 := by
  unfold truncate_summary
  by_cases h : SUMMARY_CHAR_LIMIT < s.length
  · rw [if_pos h, List.length_append]
    have h1 : (pyRstrip (s.take SUMMARY_CHAR_LIMIT)).length ≤ SUMMARY_CHAR_LIMIT := by
      have h2 := (pyRstrip_pre (s.take SUMMARY_CHAR_LIMIT)).length_le
      rw [List.length_take] at h2
      omega
    simp only [List.length_singleton]
    omega
  · rw [if_neg h]
    omega

theorem truncate_summary_ne_nil {s : Str} (h : s ≠ []) : truncate_summary s ≠ [] := by
  unfold truncate_summary
  by_cases hc : SUMMARY_CHAR_LIMIT < s.length
  · rw [if_pos hc]; simp
  · rw [if_neg hc]; exact h

theorem summary_body_ne_nil {text : Str} (hex : ∃ c ∈ text, isPySpace c = false) :
    summary_body text ≠ [] := by
  unfold summary_body
  simp only [ite_self]
  by_cases h2 : pyStrip (fallback_summary text SUMMARY_SENTENCES_TARGET 180) = []
  · rw [if_pos h2]
    exact fallback_summary_strip_ne_nil text 3 90 (by omega) hex
  · rw [if_neg h2]
    exact h2

/-- C5 (amended): whenever `full_text` contains a non-whitespace character,
the summary has length at most `SUMMARY_CHAR_LIMIT + 1` (the appended
ellipsis can overshoot the truncation limit by one character, see the
counterexample for the limit itself), and the summary is non-empty whenever
`full_text` is non-empty (for whitespace-only `full_text` the result is the
fixed title-plus-note string, whose length grows with the title). -/
theorem make_summary_spec (title fullText : Str) :
    ((∃ c ∈ fullText, isPySpace c = false) →
      (make_summary title fullText).length ≤ SUMMARY_CHAR_LIMIT + 1)
    ∧ (fullText ≠ [] → make_summary title fullText ≠ []) := by
  constructor
  · intro hex
    have hstrip : pyStrip fullText ≠ [] := pyStrip_ne_nil_of_exists hex
    unfold make_summary
    rw [if_neg hstrip]
    exact truncate_summary_length _
  · intro _
    unfold make_summary
    by_cases hstrip : pyStrip fullText = []
    · rw [if_pos hstrip]
      intro h
      rcases List.append_eq_nil.mp h with ⟨_, h2⟩
      exact absurd h2 (by decide)
    · rw [if_neg hstrip]
      have hex : ∃ c ∈ pyStrip fullText, isPySpace c = false :=
        pyStrip_exists_not_space hstrip
      exact truncate_summary_ne_nil (summary_body_ne_nil hex)

theorem make_summary_spec_witness :
    (∃ c ∈ "abc def.".toList, isPySpace c = false)
    ∧ "abc def.".toList ≠ ([] : Str)
    ∧ (make_summary "T".toList "abc def.".toList).length ≤ SUMMARY_CHAR_LIMIT + 1
    ∧ make_summary "T".toList "abc def.".toList ≠ [] :=
  ⟨by decide, by decide,
    (make_summary_spec "T".toList "abc def.".toList).1 (by decide),
    (make_summary_spec "T".toList "abc def.".toList).2 (by decide)⟩

set_option maxRecDepth 40000 in
/-- C5 counterexample: with empty `full_text` and a 1300-character title,
`_make_summary` returns the title followed by the fixed note, a 1334
character string, so `len(summary) ≤ SUMMARY_CHAR_LIMIT` fails. -/
theorem make_summary_limit_counterexample :
    ¬ ((make_summary (List.replicate 1300 'a') []).length ≤ SUMMARY_CHAR_LIMIT) := by
  decide

/-! ## Characterization of the leading-keyword stripping (C9, C2) -/

/-- Lines consumed by `_remove_leading_keyword_lines`: blank or KEYWORDS. -/
def blankOrKw (l : Str) : Bool := isBlankLine l || isKwLine l

theorem takeWhile_length_mono {p q : α → Bool} (h : ∀ a, p a = true → q a = true) :
    ∀ l : List α, (l.takeWhile p).length ≤ (l.takeWhile q).length := by
  intro l
  induction l with
  | nil => simp
  | cons a t ih =>
    by_cases hp : p a = true
    · rw [List.takeWhile_cons, if_pos hp, List.takeWhile_cons, if_pos (h a hp)]
      simpa using ih
    · rw [List.takeWhile_cons, if_neg hp]
      simp

theorem dropWhile_eq_drop_length (p : α → Bool) (l : List α) :
    l.dropWhile p = l.drop (l.takeWhile p).length := by
  induction l with
  | nil => rfl
  | cons a t ih =>
    by_cases hp : p a = true
    · rw [List.dropWhile_cons, if_pos hp, List.takeWhile_cons, if_pos hp]
      simpa using ih
    · rw [List.dropWhile_cons, if_neg hp, List.takeWhile_cons, if_neg hp]
      simp

theorem skipBlanks_eq (scan : Nat) :
    ∀ (ls : List Str) (i : Nat),
      i + (ls.takeWhile isBlankLine).length ≤ scan →
      skipBlanks scan ls i
        = (ls.dropWhile isBlankLine, i + (ls.takeWhile isBlankLine).length) := by
  intro ls
  induction ls with
  | nil => intro i h; simp [skipBlanks]
  | cons l rest ih =>
    intro i h
    by_cases hb : isBlankLine l = true
    · have htw : (l :: rest).takeWhile isBlankLine
          = l :: rest.takeWhile isBlankLine := by
        rw [List.takeWhile_cons, if_pos hb]
      rw [htw] at h
      simp only [List.length_cons] at h
      have hcond : i < scan ∧ isBlankLine l = true := ⟨by omega, hb⟩
      simp only [skipBlanks, if_pos hcond]
      rw [ih (i + 1) (by omega)]
      rw [htw, List.dropWhile_cons, if_pos hb]
      simp only [List.length_cons]
      congr 1
      omega
    · have hcond : ¬ (i < scan ∧ isBlankLine l = true) := by
        intro hc; exact hb hc.2
      simp only [skipBlanks, if_neg hcond]
      rw [List.takeWhile_cons, if_neg hb, List.dropWhile_cons, if_neg hb]
      simp

theorem skipBlanks_cases (scan : Nat) :
    ∀ (ls : List Str) (i : Nat),
      ∃ k, skipBlanks scan ls i = (ls.drop k, i + k)
        ∧ ((ls.drop k) = ls.dropWhile isBlankLine
            ∨ ∃ h t, ls.drop k = h :: t ∧ isBlankLine h = true) := by
  intro ls
  induction ls with
  | nil =>
    intro i
    exact ⟨0, by simp [skipBlanks], Or.inl (by simp)⟩
  | cons l rest ih =>
    intro i
    by_cases hcond : i < scan ∧ isBlankLine l = true
    · obtain ⟨k, hk, hcase⟩ := ih (i + 1)
      refine ⟨k + 1, ?_, ?_⟩
      · simp only [skipBlanks, if_pos hcond]
        rw [hk, List.drop_succ_cons]
        congr 1
        omega
      · rw [List.drop_succ_cons]
        rcases hcase with hc | hc
        · left
          rw [hc, List.dropWhile_cons, if_pos hcond.2]
        · right; exact hc
    · refine ⟨0, by simp [skipBlanks, if_neg hcond], ?_⟩
      by_cases hb : isBlankLine l = true
      · right; exact ⟨l, rest, by simp, hb⟩
      · left
        rw [List.drop_zero, List.dropWhile_cons, if_neg hb]

theorem kwLoop_stop (scan fuel : Nat) (ls : List Str) (i : Nat) (removed : Bool)
    (h : ∀ l t, ls = l :: t → ¬ (i < scan ∧ isKwLine l = true)) :
    kwLoop scan fuel ls i removed = (ls, i, removed) := by
  cases fuel with
  | zero => rfl
  | succ fuel =>
    cases ls with
    | nil => rfl
    | cons l rest =>
      simp only [kwLoop]
      rw [if_neg (h l rest rfl)]

theorem kwLoop_run (scan : Nat) :
    ∀ (fuel : Nat) (ls : List Str) (i : Nat) (removed : Bool),
      ls.length ≤ fuel →
      i + (ls.takeWhile blankOrKw).length ≤ scan →
      (∀ h t, ls = h :: t → isBlankLine h = false) →
      kwLoop scan fuel ls i removed
        = (ls.drop (ls.takeWhile blankOrKw).length,
           i + (ls.takeWhile blankOrKw).length,
           removed || decide (0 < (ls.takeWhile blankOrKw).length)) := by
  intro fuel
  induction fuel with
  | zero =>
    intro ls i removed hfuel hscan hhead
    cases ls with
    | nil => simp [kwLoop]
    | cons l rest => simp at hfuel
  | succ fuel ih =>
    intro ls i removed hfuel hscan hhead
    cases ls with
    | nil => simp [kwLoop]
    | cons l rest =>
      have hhl : isBlankLine l = false := hhead l rest rfl
      by_cases hkw : isKwLine l = true
      · have hPl : blankOrKw l = true := by simp [blankOrKw, hkw]
        have htw : (l :: rest).takeWhile blankOrKw
            = l :: rest.takeWhile blankOrKw := by
          rw [List.takeWhile_cons, if_pos hPl]
        rw [htw]
        simp only [List.length_cons] at hscan ⊢
        rw [htw] at hscan
        simp only [List.length_cons] at hscan
        have hi : i < scan := by omega
        simp only [kwLoop, if_pos (⟨hi, hkw⟩ : i < scan ∧ isKwLine l = true)]
        -- decompose rest into its blank run and the remainder
        have hmono : (rest.takeWhile isBlankLine).length
            ≤ (rest.takeWhile blankOrKw).length :=
          takeWhile_length_mono (fun a ha => by simp [blankOrKw, ha]) rest
        have hsb : (i + 1) + (rest.takeWhile isBlankLine).length ≤ scan := by omega
        rw [skipBlanks_eq scan rest (i + 1) hsb]
        have hdecomp : rest = rest.takeWhile isBlankLine ++ rest.dropWhile isBlankLine :=
          (List.takeWhile_append_dropWhile isBlankLine rest).symm
        have hPblanks : ∀ a ∈ rest.takeWhile isBlankLine, blankOrKw a = true := by
          intro a ha
          simp [blankOrKw, List.mem_takeWhile_imp ha]
        have htwP : rest.takeWhile blankOrKw
            = rest.takeWhile isBlankLine
              ++ (rest.dropWhile isBlankLine).takeWhile blankOrKw := by
          conv_lhs => rw [hdecomp]
          rw [List.takeWhile_append_of_pos hPblanks]
        have hlenP : (rest.takeWhile blankOrKw).length
            = (rest.takeWhile isBlankLine).length
              + ((rest.dropWhile isBlankLine).takeWhile blankOrKw).length := by
          rw [htwP, List.length_append]
        simp only [List.length_cons] at hfuel
        have hih := ih (rest.dropWhile isBlankLine)
          ((i + 1) + (rest.takeWhile isBlankLine).length) true
          (by
            have := (List.dropWhile_suffix (l := rest) (p := isBlankLine)).length_le
            omega)
          (by omega)
          (by
            intro h t ht
            have h2 := List.head?_dropWhile_not isBlankLine rest
            rw [ht] at h2
            simpa using h2)
        rw [hih]
        have hdw : rest.dropWhile isBlankLine
            = rest.drop (rest.takeWhile isBlankLine).length :=
          dropWhile_eq_drop_length _ _
        simp only [Prod.mk.injEq]
        refine ⟨?_, ?_, ?_⟩
        · rw [List.drop_succ_cons, hdw, List.drop_drop, hlenP, ← hdw]
        · rw [hlenP]; omega
        · simp
      · have hkw2 : isKwLine l = false := by
          cases hx : isKwLine l
          · rfl
          · exact absurd hx hkw
        have hPl : blankOrKw l = false := by simp [blankOrKw, hhl, hkw2]
        have htw : (l :: rest).takeWhile blankOrKw = [] := by
          rw [List.takeWhile_cons, if_neg (by simp [hPl])]
        rw [htw]
        simp only [kwLoop]
        rw [if_neg (by intro hc; rw [hkw2] at hc; exact absurd hc.2 (by simp))]
        simp

theorem remove_leading_keyword_lines_noop (body : List Str) (scan : Nat)
    (h : ∀ l t, body.dropWhile isBlankLine = l :: t → isKwLine l = false) :
    remove_leading_keyword_lines body scan = body := by
  obtain ⟨k, hk, hcase⟩ := skipBlanks_cases scan body 0
  have hstop : kwLoop scan body.length (body.drop k) (0 + k) false
      = (body.drop k, 0 + k, false) := by
    apply kwLoop_stop
    intro l t hl hc
    rcases hcase with hcs | hcs
    · rw [hcs] at hl
      have hkwl := h l t hl
      rw [hkwl] at hc
      exact absurd hc.2 (by simp)
    · obtain ⟨h0, t0, he, hb⟩ := hcs
      rw [he] at hl
      injection hl with h1 _
      subst h1
      rw [isBlank_not_kw hb] at hc
      exact absurd hc.2 (by simp)
  have hstop2 : kwLoop scan body.length (body.drop k) k false
      = (body.drop k, k, false) := by simpa using hstop
  simp [remove_leading_keyword_lines, hk, hstop2]

theorem remove_leading_keyword_lines_removes (body : List Str) (scan : Nat)
    (hscan : (body.takeWhile blankOrKw).length ≤ scan)
    (hex : ∃ l t, body.dropWhile isBlankLine = l :: t ∧ isKwLine l = true) :
    remove_leading_keyword_lines body scan
      = body.drop (body.takeWhile blankOrKw).length := by
  have hmono : (body.takeWhile isBlankLine).length
      ≤ (body.takeWhile blankOrKw).length :=
    takeWhile_length_mono (fun a ha => by simp [blankOrKw, ha]) body
  have hskip := skipBlanks_eq scan body 0 (by omega)
  have hdecomp : body = body.takeWhile isBlankLine ++ body.dropWhile isBlankLine :=
    (List.takeWhile_append_dropWhile isBlankLine body).symm
  have hPblanks : ∀ a ∈ body.takeWhile isBlankLine, blankOrKw a = true := by
    intro a ha
    simp [blankOrKw, List.mem_takeWhile_imp ha]
  have htwP : body.takeWhile blankOrKw
      = body.takeWhile isBlankLine
        ++ (body.dropWhile isBlankLine).takeWhile blankOrKw := by
    conv_lhs => rw [hdecomp]
    rw [List.takeWhile_append_of_pos hPblanks]
  have hlenP : (body.takeWhile blankOrKw).length
      = (body.takeWhile isBlankLine).length
        + ((body.dropWhile isBlankLine).takeWhile blankOrKw).length := by
    rw [htwP, List.length_append]
  have hrun := kwLoop_run scan body.length (body.dropWhile isBlankLine)
      (0 + (body.takeWhile isBlankLine).length) false
      ((List.dropWhile_suffix isBlankLine).length_le)
      (by omega)
      (by
        intro h t ht
        have h2 := List.head?_dropWhile_not isBlankLine body
        rw [ht] at h2
        simpa using h2)
  obtain ⟨l, t, hl, hkw⟩ := hex
  have hr1 : 1 ≤ ((body.dropWhile isBlankLine).takeWhile blankOrKw).length := by
    rw [hl, List.takeWhile_cons, if_pos (by simp [blankOrKw, hkw])]
    simp
  have hflag : (false
      || decide (0 < ((body.dropWhile isBlankLine).takeWhile blankOrKw).length))
      = true := by
    simp
    omega
  simp only [remove_leading_keyword_lines, hskip, hrun]
  rw [if_pos hflag]
  rw [hlenP, dropWhile_eq_drop_length isBlankLine body, List.drop_drop,
    ← dropWhile_eq_drop_length isBlankLine body]

/-- C9 (amended): the per-chunk stripping `_remove_leading_keyword_lines`
with the Aggregator's `scan_lines = 60` is idempotent for every body-line
list whose leading run of blank-or-KEYWORDS lines has length at most the
scan limit 60; when that run reaches past the limit the cap can leave
further keyword lines behind, which a second pass then removes (see the
counterexample). -/
theorem strip_keywords_idempotent (body : List Str)
    (hscan : (body.takeWhile blankOrKw).length ≤ 60) :
    remove_leading_keyword_lines (remove_leading_keyword_lines body 60) 60
      = remove_leading_keyword_lines body 60 := by
  by_cases hkw : ∃ l t, body.dropWhile isBlankLine = l :: t ∧ isKwLine l = true
  · rw [remove_leading_keyword_lines_removes body 60 hscan hkw]
    apply remove_leading_keyword_lines_noop
    intro l t hl
    rw [← dropWhile_eq_drop_length blankOrKw body] at hl
    have hhead := List.head?_dropWhile_not blankOrKw body
    cases hSS : body.dropWhile blankOrKw with
    | nil =>
      rw [hSS] at hl
      simp at hl
    | cons s0 r0 =>
      rw [hSS] at hhead
      simp only [List.head?_cons] at hhead
      have hs0b : isBlankLine s0 = false := by
        simp [blankOrKw] at hhead
        exact hhead.1
      have hs0k : isKwLine s0 = false := by
        simp [blankOrKw] at hhead
        exact hhead.2
      rw [hSS, List.dropWhile_cons, if_neg (by simp [hs0b])] at hl
      injection hl with h1 _
      exact h1 ▸ hs0k
  · have hnk : ∀ l t, body.dropWhile isBlankLine = l :: t → isKwLine l = false := by
      intro l t hl
      cases hx : isKwLine l
      · rfl
      · exact absurd ⟨l, t, hl, hx⟩ hkw
    rw [remove_leading_keyword_lines_noop body 60 hnk,
      remove_leading_keyword_lines_noop body 60 hnk]

theorem strip_keywords_idempotent_witness :
    ((["KEYWORDS: a".toList, [], "x".toList] : List Str).takeWhile blankOrKw).length ≤ 60
    ∧ remove_leading_keyword_lines
        (remove_leading_keyword_lines ["KEYWORDS: a".toList, [], "x".toList] 60) 60
      = remove_leading_keyword_lines ["KEYWORDS: a".toList, [], "x".toList] 60 :=
  ⟨by decide,
    strip_keywords_idempotent ["KEYWORDS: a".toList, [], "x".toList] (by decide)⟩

/-- C9 counterexample: a body of 61 consecutive "KEYWORDS: x" lines.  The
first pass stops at the 60-line scan cap and leaves the 61st keyword line in
place; the second pass removes it, so applying the stripping twice differs
from applying it once. -/
theorem strip_keywords_idempotence_counterexample :
    remove_leading_keyword_lines
        (remove_leading_keyword_lines (List.replicate 61 "KEYWORDS: x".toList) 60) 60
      ≠ remove_leading_keyword_lines (List.replicate 61 "KEYWORDS: x".toList) 60 := by
  decide

/-! ## Reconstruction of `splitlines` after a newline join (C2) -/

theorem normCRLF_append_newline {a : Str}
    (ha : ∀ c ∈ a, isLineBreakChar c = false) (rest : Str) :
    normCRLF (a ++ '\n' :: rest) = a ++ '\n' :: normCRLF rest := by
  induction a with
  | nil =>
    cases rest with
    | nil => rfl
    | cons r rest2 =>
      show normCRLF ('\n' :: r :: rest2) = '\n' :: normCRLF (r :: rest2)
      rw [normCRLF]
      rw [if_neg (by intro hc; exact absurd hc.1 (by decide))]
  | cons c a2 ih =>
    have hc : isLineBreakChar c = false := ha c (by simp)
    have hcr : c ≠ '\r' := by
      intro hcontra
      rw [hcontra] at hc
      exact absurd hc (by decide)
    have ih2 := ih (by intro x hx; exact ha x (by simp [hx]))
    cases a2 with
    | nil =>
      show normCRLF (c :: '\n' :: rest) = c :: '\n' :: normCRLF rest
      rw [normCRLF, if_neg (by intro hcon; exact hcr hcon.1)]
      have ih3 : normCRLF ('\n' :: rest) = '\n' :: normCRLF rest := by simpa using ih2
      rw [ih3]
    | cons d a3 =>
      show normCRLF (c :: d :: (a3 ++ '\n' :: rest))
          = c :: d :: a3 ++ '\n' :: normCRLF rest
      rw [normCRLF, if_neg (by intro hcon; exact hcr hcon.1)]
      have ih3 : normCRLF ((d :: a3) ++ '\n' :: rest)
          = (d :: a3) ++ '\n' :: normCRLF rest := ih2
      rw [show d :: (a3 ++ '\n' :: rest) = (d :: a3) ++ '\n' :: rest from rfl, ih3]
      rfl

theorem splitBreaks_append {a : Str}
    (ha : ∀ c ∈ a, isLineBreakChar c = false) :
    ∀ (acc : Str) (rest : Str),
      splitBreaks acc (a ++ '\n' :: rest)
        = (acc.reverse ++ a) :: splitBreaks [] rest := by
  induction a with
  | nil =>
    intro acc rest
    show splitBreaks acc ('\n' :: rest) = (acc.reverse ++ []) :: splitBreaks [] rest
    rw [splitBreaks, if_pos (by decide)]
    simp
  | cons c a2 ih =>
    intro acc rest
    have hc : isLineBreakChar c = false := ha c (by simp)
    show splitBreaks acc (c :: (a2 ++ '\n' :: rest)) = _
    rw [splitBreaks, if_neg (by simp [hc])]
    rw [ih (by intro x hx; exact ha x (by simp [hx])) (c :: acc) rest]
    simp

theorem pySplitlines_join_newline {L : List Str} :
    L ≠ [] → (∀ l ∈ L, ∀ c ∈ l, isLineBreakChar c = false) →
    pySplitlines (List.intercalate ['\n'] L ++ ['\n']) = L := by
  induction L with
  | nil => intro h _; exact absurd rfl h
  | cons a rest ih =>
    intro _ hnb
    have ha : ∀ c ∈ a, isLineBreakChar c = false := hnb a (by simp)
    cases rest with
    | nil =>
      rw [intercalate_single]
      unfold pySplitlines
      rw [normCRLF_append_newline ha, show normCRLF [] = [] from rfl]
      rw [splitBreaks_append ha [] []]
      simp [splitBreaks]
    | cons b t =>
      rw [intercalate_cons_cons]
      have hshape : a ++ ['\n'] ++ List.intercalate ['\n'] (b :: t) ++ ['\n']
          = a ++ '\n' :: (List.intercalate ['\n'] (b :: t) ++ ['\n']) := by
        simp [List.append_assoc]
      rw [hshape]
      unfold pySplitlines
      rw [normCRLF_append_newline ha]
      rw [splitBreaks_append ha [] _]
      have hIH := ih (by simp) (by
        intro l hl c hc
        exact hnb l (by simp [hl]) c hc)
      unfold pySplitlines at hIH
      rw [hIH]
      simp

/-- The effect of `"\n".join(lines).rstrip()` at the line level: trailing
all-whitespace lines vanish and the last surviving line is right-stripped. -/
def rstripLines : List Str → List Str
  | [] => []
  | l :: rest =>
    if rstripLines rest = [] then
      if pyRstrip l = [] then [] else [pyRstrip l]
    else l :: rstripLines rest

theorem rstripLines_eq_nil_iff (M : List Str) :
    rstripLines M = [] ↔ ∀ l ∈ M, pyRstrip l = [] := by
  induction M with
  | nil => simp [rstripLines]
  | cons l rest ih =>
    rw [rstripLines]
    by_cases hr : rstripLines rest = []
    · rw [if_pos hr]
      by_cases hl : pyRstrip l = []
      · rw [if_pos hl]
        constructor
        · intro _ x hx
          rcases List.mem_cons.mp hx with h | h
          · subst h; exact hl
          · exact ih.mp hr x h
        · intro _
          rfl
      · rw [if_neg hl]
        constructor
        · intro hc; exact absurd hc (by simp)
        · intro hall; exact absurd (hall l (by simp)) hl
    · rw [if_neg hr]
      constructor
      · intro hc; exact absurd hc (by simp)
      · intro hall
        exact absurd (ih.mpr (fun x hx => hall x (List.mem_cons_of_mem _ hx))) hr

theorem rstripLines_mem {M : List Str} {x : Str} (hx : x ∈ rstripLines M) :
    x ∈ M ∨ ∃ y ∈ M, x = pyRstrip y := by
  induction M with
  | nil => simp [rstripLines] at hx
  | cons l rest ih =>
    rw [rstripLines] at hx
    by_cases hr : rstripLines rest = []
    · rw [if_pos hr] at hx
      by_cases hl : pyRstrip l = []
      · rw [if_pos hl] at hx; cases hx
      · rw [if_neg hl] at hx
        simp only [List.mem_singleton] at hx
        exact Or.inr ⟨l, by simp, hx⟩
    · rw [if_neg hr] at hx
      rcases List.mem_cons.mp hx with h | h
      · exact Or.inl (by simp [h])
      · rcases ih h with h2 | ⟨y, hy, hxy⟩
        · exact Or.inl (List.mem_cons_of_mem _ h2)
        · exact Or.inr ⟨y, List.mem_cons_of_mem _ hy, hxy⟩

theorem rstripLines_cons_of_ne {x : Str} {M : List Str}
    (h : rstripLines M ≠ []) : rstripLines (x :: M) = x :: rstripLines M := by
  rw [rstripLines, if_neg h]

theorem rstripLines_cons_of_fixed {x : Str} (hx : pyRstrip x = x) (hne : x ≠ [])
    (M : List Str) : rstripLines (x :: M) = x :: rstripLines M := by
  by_cases hr : rstripLines M = []
  · rw [rstripLines, if_pos hr, if_neg (by rw [hx]; exact hne), hx, hr]
  · exact rstripLines_cons_of_ne hr

theorem mem_intercalate_cases {sep : Str} {xs : List Str} {c : Char}
    (hc : c ∈ List.intercalate sep xs) : c ∈ sep ∨ ∃ l ∈ xs, c ∈ l := by
  induction xs with
  | nil => simp [List.intercalate] at hc
  | cons a rest ih =>
    cases rest with
    | nil =>
      rw [intercalate_single] at hc
      exact Or.inr ⟨a, by simp, hc⟩
    | cons b t =>
      rw [intercalate_cons_cons] at hc
      rcases List.mem_append.mp hc with h | h
      · rcases List.mem_append.mp h with h2 | h2
        · exact Or.inr ⟨a, by simp, h2⟩
        · exact Or.inl h2
      · rcases ih h with h2 | ⟨l, hl, hcl⟩
        · exact Or.inl h2
        · exact Or.inr ⟨l, List.mem_cons_of_mem _ hl, hcl⟩

theorem splitlines_rstrip_join :
    ∀ (L : List Str), L ≠ [] →
      (∀ l ∈ L, ∀ c ∈ l, isLineBreakChar c = false) →
      (∃ l ∈ L, pyRstrip l ≠ []) →
      pySplitlines (pyRstrip (List.intercalate ['\n'] L) ++ ['\n'])
        = rstripLines L := by
  intro L
  induction L with
  | nil => intro h _ _; exact absurd rfl h
  | cons a rest ih =>
    intro _ hnb hex
    have ha : ∀ c ∈ a, isLineBreakChar c = false := hnb a (by simp)
    have hra : ∀ c ∈ pyRstrip a, isLineBreakChar c = false := by
      intro c hc
      exact ha c ((pyRstrip_pre a).subset hc)
    have honeline : pySplitlines (pyRstrip a ++ ['\n']) = [pyRstrip a] := by
      have hone := pySplitlines_join_newline (L := [pyRstrip a]) (by simp)
        (by intro l hl c hc; rcases List.mem_singleton.mp hl with rfl; exact hra c hc)
      rw [intercalate_single] at hone
      exact hone
    cases rest with
    | nil =>
      have hane : pyRstrip a ≠ [] := by
        rcases hex with ⟨l, hl, hlne⟩
        rcases List.mem_singleton.mp hl with rfl
        exact hlne
      rw [intercalate_single, honeline]
      rw [rstripLines, rstripLines, if_pos rfl, if_neg hane]
    | cons b t =>
      by_cases hA : ∃ l ∈ (b :: t), pyRstrip l ≠ []
      · -- some later line survives the right strip
        obtain ⟨l0, hl0, hl0ne⟩ := hA
        have hl0ex : ∃ c ∈ l0, isPySpace c = false := by
          by_contra hcon
          push_neg at hcon
          apply hl0ne
          rw [pyRstrip_eq_nil_iff]
          intro c hc
          cases hx : isPySpace c
          · exact absurd hx (hcon c hc)
          · rfl
        obtain ⟨c0, hc0, hc0ns⟩ := hl0ex
        have hcX : c0 ∈ List.intercalate ['\n'] (b :: t) :=
          mem_intercalate_of_mem hl0 hc0
        have hXne : pyRstrip (List.intercalate ['\n'] (b :: t)) ≠ [] := by
          intro hnil
          have h2 := (pyRstrip_eq_nil_iff _).mp hnil c0 hcX
          rw [hc0ns] at h2
          exact absurd h2 (by simp)
        have hBne : pyRstrip ('\n' :: List.intercalate ['\n'] (b :: t)) ≠ [] := by
          intro hnil
          have h2 := (pyRstrip_eq_nil_iff _).mp hnil c0 (by simp [hcX])
          rw [hc0ns] at h2
          exact absurd h2 (by simp)
        rw [intercalate_cons_cons]
        have hshape : a ++ ['\n'] ++ List.intercalate ['\n'] (b :: t)
            = a ++ ('\n' :: List.intercalate ['\n'] (b :: t)) := by
          simp [List.append_assoc]
        rw [hshape]
        rw [pyRstrip_append, if_neg hBne]
        rw [show ('\n' :: List.intercalate ['\n'] (b :: t))
            = ['\n'] ++ List.intercalate ['\n'] (b :: t) from rfl]
        rw [pyRstrip_append, if_neg hXne]
        have hshape2 : a ++ (['\n'] ++ pyRstrip (List.intercalate ['\n'] (b :: t))) ++ ['\n']
            = a ++ '\n' :: (pyRstrip (List.intercalate ['\n'] (b :: t)) ++ ['\n']) := by
          simp [List.append_assoc]
        rw [hshape2]
        unfold pySplitlines
        rw [normCRLF_append_newline ha, splitBreaks_append ha [] _]
        have hIH := ih (by simp) (by
            intro l hl c hc
            exact hnb l (List.mem_cons_of_mem _ hl) c hc) ⟨l0, hl0, hl0ne⟩
        unfold pySplitlines at hIH
        rw [hIH]
        have hne2 : rstripLines (b :: t) ≠ [] := by
          intro hnil
          exact hl0ne ((rstripLines_eq_nil_iff (b :: t)).mp hnil l0 hl0)
        rw [rstripLines_cons_of_ne hne2]
        simp
      · -- every later line is all whitespace
        push_neg at hA
        have haneed : pyRstrip a ≠ [] := by
          rcases hex with ⟨l, hl, hlne⟩
          rcases List.mem_cons.mp hl with rfl | hl2
          · exact hlne
          · exact absurd (hA l hl2) hlne
        have hWws : ∀ c ∈ '\n' :: List.intercalate ['\n'] (b :: t), isPySpace c = true := by
          intro c hc
          rcases List.mem_cons.mp hc with rfl | hc2
          · decide
          · rcases mem_intercalate_cases hc2 with hsep | ⟨l, hl, hcl⟩
            · rcases List.mem_singleton.mp hsep with rfl
              decide
            · exact (pyRstrip_eq_nil_iff l).mp (hA l hl) c hcl
        rw [intercalate_cons_cons]
        have hshape : a ++ ['\n'] ++ List.intercalate ['\n'] (b :: t)
            = a ++ ('\n' :: List.intercalate ['\n'] (b :: t)) := by
          simp [List.append_assoc]
        rw [hshape]
        rw [pyRstrip_append_ws hWws]
        rw [honeline]
        have hrb : rstripLines (b :: t) = [] := (rstripLines_eq_nil_iff _).mpr hA
        rw [rstripLines, if_pos hrb, if_neg haneed]

theorem splitBreaks_no_break :
    ∀ (s acc : Str), (∀ c ∈ acc, isLineBreakChar c = false) →
      ∀ l ∈ splitBreaks acc s, ∀ c ∈ l, isLineBreakChar c = false := by
  intro s
  induction s with
  | nil =>
    intro acc hacc l hl c hc
    by_cases h : acc = ([] : Str)
    · simp [splitBreaks, h] at hl
    · simp only [splitBreaks, if_neg h, List.mem_singleton] at hl
      subst hl
      exact hacc c (by simpa using hc)
  | cons ch rest ih =>
    intro acc hacc l hl c hc
    by_cases hbr : isLineBreakChar ch = true
    · rw [splitBreaks, if_pos hbr] at hl
      rcases List.mem_cons.mp hl with h | h
      · subst h
        exact hacc c (by simpa using hc)
      · exact ih [] (by intro x hx; cases hx) l h c hc
    · have hbr2 : isLineBreakChar ch = false := by
        cases hx : isLineBreakChar ch
        · rfl
        · exact absurd hx hbr
      rw [splitBreaks, if_neg (by simp [hbr2])] at hl
      refine ih (ch :: acc) ?_ l hl c hc
      intro x hx
      rcases List.mem_cons.mp hx with h | h
      · subst h; exact hbr2
      · exact hacc x h

theorem pySplitlines_no_break {s : Str} :
    ∀ l ∈ pySplitlines s, ∀ c ∈ l, isLineBreakChar c = false :=
  splitBreaks_no_break (normCRLF s) [] (by intro c hc; cases hc)

theorem pyStrip_subset {s : Str} {c : Char} (hc : c ∈ pyStrip s) : c ∈ s := by
  have h1 : c ∈ pyLstrip s := (pyRstrip_pre (pyLstrip s)).subset hc
  exact (List.dropWhile_suffix isPySpace).subset h1

theorem kwLoop_true_suffix (scan : Nat) :
    ∀ (fuel : Nat) (ls : List Str) (i : Nat),
      ∃ k j, kwLoop scan fuel ls i true = (ls.drop k, j, true) := by
  intro fuel
  induction fuel with
  | zero => intro ls i; exact ⟨0, i, by simp [kwLoop]⟩
  | succ fuel ih =>
    intro ls i
    cases ls with
    | nil => exact ⟨0, i, by simp [kwLoop]⟩
    | cons l rest =>
      by_cases hcond : i < scan ∧ isKwLine l = true
      · obtain ⟨k1, hsb, _⟩ := skipBlanks_cases scan rest (i + 1)
        obtain ⟨k2, j, hkl⟩ := ih (rest.drop k1) (i + 1 + k1)
        refine ⟨1 + k1 + k2, j, ?_⟩
        simp only [kwLoop, if_pos hcond, hsb]
        rw [hkl, List.drop_drop]
        have hdr : (l :: rest).drop (1 + k1 + k2) = rest.drop (k1 + k2) := by
          rw [show 1 + k1 + k2 = (k1 + k2) + 1 by omega, List.drop_succ_cons]
        rw [hdr]
      · exact ⟨0, i, by simp [kwLoop, if_neg hcond]⟩

theorem kwLoop_result_suffix (scan : Nat) :
    ∀ (fuel : Nat) (ls : List Str) (i : Nat) (removed : Bool),
      ∃ k, (kwLoop scan fuel ls i removed).1 = ls.drop k := by
  intro fuel
  induction fuel with
  | zero => intro ls i removed; exact ⟨0, by simp [kwLoop]⟩
  | succ fuel ih =>
    intro ls i removed
    cases ls with
    | nil => exact ⟨0, by simp [kwLoop]⟩
    | cons l rest =>
      by_cases hcond : i < scan ∧ isKwLine l = true
      · obtain ⟨k1, hsb, _⟩ := skipBlanks_cases scan rest (i + 1)
        obtain ⟨k2, hkl⟩ := ih (rest.drop k1) (i + 1 + k1) true
        refine ⟨1 + k1 + k2, ?_⟩
        simp only [kwLoop, if_pos hcond, hsb]
        rw [hkl, List.drop_drop]
        rw [show 1 + k1 + k2 = (k1 + k2) + 1 by omega, List.drop_succ_cons]
      · exact ⟨0, by simp [kwLoop, if_neg hcond]⟩

theorem remove_leading_keyword_lines_subset {body : List Str} {scan : Nat} :
    ∀ x ∈ remove_leading_keyword_lines body scan, x ∈ body := by
  intro x hx
  unfold remove_leading_keyword_lines at hx
  obtain ⟨k1, hsb, _⟩ := skipBlanks_cases scan body 0
  rw [hsb] at hx
  obtain ⟨k2, hkl⟩ := kwLoop_result_suffix scan body.length (body.drop k1) (0 + k1) false
  by_cases hflag : (kwLoop scan body.length (body.drop k1) (0 + k1) false).2.2 = true
  · rw [if_pos hflag] at hx
    rw [hkl, List.drop_drop] at hx
    exact List.drop_subset _ _ hx
  · rw [if_neg hflag] at hx
    exact hx

theorem sanitizeAux_mem (top_k : Nat) :
    ∀ l out seenSet, ∀ x ∈ sanitizeAux top_k l out seenSet,
      x ∈ out ∨ ∃ k ∈ l, x = pyStrip k := by
  intro l
  induction l with
  | nil =>
    intro out seenSet x hx
    simp only [sanitizeAux] at hx
    exact Or.inl hx
  | cons k rest ih =>
    intro out seenSet x hx
    simp only [sanitizeAux] at hx
    have hlift : x ∈ out ∨ (∃ k2 ∈ rest, x = pyStrip k2) →
        x ∈ out ∨ ∃ k2 ∈ k :: rest, x = pyStrip k2 := by
      intro hh
      rcases hh with hh | ⟨k2, hk2, he⟩
      · exact Or.inl hh
      · exact Or.inr ⟨k2, List.mem_cons_of_mem _ hk2, he⟩
    by_cases h1 : pyStrip k = []
    · rw [if_pos h1] at hx
      exact hlift (ih out seenSet x hx)
    · rw [if_neg h1] at hx
      by_cases h2 : pyLower (pyStrip k) = "keywords".toList
      · rw [if_pos h2] at hx
        exact hlift (ih out seenSet x hx)
      · rw [if_neg h2] at hx
        by_cases h3 : "keywords:".toList.isPrefixOf (pyLower (pyStrip k)) = true
        · rw [if_pos h3] at hx
          exact hlift (ih out seenSet x hx)
        · rw [if_neg h3] at hx
          have hnew : x ∈ out ++ [pyStrip k] →
              x ∈ out ∨ ∃ k2 ∈ k :: rest, x = pyStrip k2 := by
            intro hh
            rcases List.mem_append.mp hh with hh | hh
            · exact Or.inl hh
            · simp only [List.mem_singleton] at hh
              exact Or.inr ⟨k, by simp, hh⟩
          by_cases hmem : pyStrip k ∈ seenSet
          · rw [if_pos hmem] at hx
            by_cases hb : top_k ≤ out.length
            · rw [if_pos hb] at hx
              exact Or.inl hx
            · rw [if_neg hb] at hx
              exact hlift (ih out seenSet x hx)
          · rw [if_neg hmem] at hx
            by_cases hb : top_k ≤ (out ++ [pyStrip k]).length
            · rw [if_pos hb] at hx
              exact hnew hx
            · rw [if_neg hb] at hx
              rcases ih (out ++ [pyStrip k]) (pyStrip k :: seenSet) x hx with hh | hh
              · exact hnew hh
              · exact hlift (Or.inr hh)

theorem sanitize_keywords_mem {kws : List Str} {top_k : Nat} {x : Str}
    (hx : x ∈ sanitize_keywords kws top_k) :
    (∃ k ∈ kws, x = pyStrip k) ∨ x ∈ DEFAULT_KEYWORDS := by
  unfold sanitize_keywords at hx
  by_cases h : sanitizeAux top_k kws [] [] = []
  · rw [if_pos h] at hx
    exact Or.inr (List.take_subset _ _ hx)
  · rw [if_neg h] at hx
    rcases sanitizeAux_mem top_k kws [] [] x hx with h2 | h2
    · cases h2
    · exact Or.inl h2

theorem pyRstrip_of_strip_fixed {x : Str} (h : pyStrip x = x) : pyRstrip x = x := by
  conv_lhs => rw [← h]
  unfold pyStrip
  rw [pyRstrip_idem]
  exact h

theorem sanitize_keywords_entry_fixed {kws : List Str} {top_k : Nat} {x : Str}
    (hx : x ∈ sanitize_keywords kws top_k) : pyRstrip x = x ∧ x ≠ [] := by
  unfold sanitize_keywords at hx
  by_cases h : sanitizeAux top_k kws [] [] = []
  · rw [if_pos h] at hx
    have hdef : ∀ y ∈ DEFAULT_KEYWORDS, pyStrip y = y ∧ y ≠ [] := by decide
    have h2 := hdef x (List.take_subset _ _ hx)
    exact ⟨pyRstrip_of_strip_fixed h2.1, h2.2⟩
  · rw [if_neg h] at hx
    have h2 := sanitizeAux_good top_k kws [] [] (by intro y hy; cases hy) x hx
    exact ⟨pyRstrip_of_strip_fixed h2.2.2.2, h2.2.2.1⟩

theorem sanitize_keywords_ne_nil (kws : List Str) {top_k : Nat} (h : 0 < top_k) :
    sanitize_keywords kws top_k ≠ [] := by
  unfold sanitize_keywords
  by_cases hout : sanitizeAux top_k kws [] [] = []
  · rw [if_pos hout]
    intro hnil
    have hlen0 : (DEFAULT_KEYWORDS.take top_k).length = 0 := by rw [hnil]; rfl
    rw [List.length_take] at hlen0
    have hd : DEFAULT_KEYWORDS.length = 15 := by decide
    omega
  · rw [if_neg hout]
    exact hout

theorem pyRstrip_intercalate {sep : Str} :
    ∀ {K : List Str}, (∀ x ∈ K, pyRstrip x = x ∧ x ≠ []) → K ≠ [] →
      pyRstrip (List.intercalate sep K) = List.intercalate sep K
        ∧ List.intercalate sep K ≠ [] := by
  intro K
  induction K with
  | nil => intro _ h; exact absurd rfl h
  | cons x rest ih =>
    intro hK _
    cases rest with
    | nil =>
      rw [intercalate_single]
      exact ⟨(hK x (by simp)).1, (hK x (by simp)).2⟩
    | cons y t =>
      have hIH := ih (fun z hz => hK z (List.mem_cons_of_mem _ hz)) (by simp)
      rw [intercalate_cons_cons]
      constructor
      · rw [pyRstrip_append, if_neg (by rw [hIH.1]; exact hIH.2), hIH.1]
      · intro hnil
        exact hIH.2 (List.append_eq_nil.mp hnil).2

theorem kwLineOf_fixed (kws : List Str) :
    pyRstrip (kwLineOf kws) = kwLineOf kws ∧ kwLineOf kws ≠ [] := by
  unfold kwLineOf
  have hK : ∀ x ∈ sanitize_keywords kws TOP_K_KEYWORDS, pyRstrip x = x ∧ x ≠ [] :=
    fun x hx => sanitize_keywords_entry_fixed hx
  have hne : sanitize_keywords kws TOP_K_KEYWORDS ≠ [] :=
    sanitize_keywords_ne_nil kws (by decide)
  have hI := @pyRstrip_intercalate (", ".toList) _ hK hne
  constructor
  · rw [pyRstrip_append, if_neg (by rw [hI.1]; exact hI.2), hI.1]
  · intro hnil
    have h1 := (List.append_eq_nil.mp hnil).1
    exact absurd h1 (by decide)

theorem kwLineOf_isKw (kws : List Str) : isKwLine (kwLineOf kws) = true :=
  isKw_marker _

theorem kwLineOf_literal (kws : List Str) :
    "keywords:".toList.isPrefixOf (pyLower (kwLineOf kws)) = true := by
  unfold kwLineOf pyLower
  rw [List.map_append]
  have h1 : "KEYWORDS: ".toList.map Char.toLower = "keywords: ".toList := by decide
  rw [h1, List.isPrefixOf_iff_prefix]
  have h2 : "keywords:".toList <+: "keywords: ".toList := by decide
  exact h2.trans (List.prefix_append _ _)

theorem kwLineOf_no_break {kws : List Str}
    (h : ∀ k ∈ kws, ∀ c ∈ k, isLineBreakChar c = false) :
    ∀ c ∈ kwLineOf kws, isLineBreakChar c = false := by
  intro c hc
  unfold kwLineOf at hc
  rcases List.mem_append.mp hc with h1 | h1
  · have hm : ∀ x ∈ "KEYWORDS: ".toList, isLineBreakChar x = false := by decide
    exact hm c h1
  · rcases mem_intercalate_cases h1 with hsep | ⟨l, hl, hcl⟩
    · have hm : ∀ x ∈ ", ".toList, isLineBreakChar x = false := by decide
      exact hm c hsep
    · rcases sanitize_keywords_mem hl with ⟨k0, hk0, hleq⟩ | hdef
      · subst hleq
        exact h k0 hk0 c (pyStrip_subset hcl)
      · have hm : ∀ x ∈ DEFAULT_KEYWORDS, ∀ c ∈ x, isLineBreakChar c = false := by decide
        exact hm l hdef c hcl

theorem kw_not_blank {l : Str} (h : isKwLine l = true) : isBlankLine l = false := by
  cases hx : isBlankLine l
  · rfl
  · rw [isBlank_not_kw hx] at h
    exact absurd h (by simp)

theorem rlkl_cons_kw {l : Str} {b : List Str} {scan : Nat}
    (hl : isKwLine l = true) (hs : 0 < scan) :
    ∃ k, remove_leading_keyword_lines (l :: b) scan = b.drop k := by
  have hnb : isBlankLine l = false := kw_not_blank hl
  have hsb : skipBlanks scan (l :: b) 0 = (l :: b, 0) := by
    rw [skipBlanks, if_neg (by intro hc; rw [hnb] at hc; exact absurd hc.2 (by simp))]
  obtain ⟨k1, hsk, _⟩ := skipBlanks_cases scan b 1
  obtain ⟨k2, j, hkl⟩ := kwLoop_true_suffix scan b.length (b.drop k1) (1 + k1)
  have hloop : kwLoop scan (b.length + 1) (l :: b) 0 false
      = (b.drop (k1 + k2), j, true) := by
    simp only [kwLoop,
      if_pos (⟨hs, hl⟩ : 0 < scan ∧ isKwLine l = true), Nat.zero_add, hsk]
    rw [hkl, List.drop_drop]
  refine ⟨k1 + k2, ?_⟩
  simp [remove_leading_keyword_lines, hsb, hloop]

theorem rlkl_noop_of_kw_free {b : List Str} {scan : Nat}
    (h : ∀ l ∈ b, isKwLine l = false) :
    remove_leading_keyword_lines b scan = b := by
  apply remove_leading_keyword_lines_noop
  intro l t hl
  have hmem : l ∈ b := by
    refine (List.dropWhile_suffix (p := isBlankLine) (l := b)).subset ?_
    rw [hl]
    simp
  exact h l hmem

theorem rewrite_output_splitlines (kws : List Str) (content : Str)
    (hkwsnb : ∀ c ∈ kwLineOf kws, isLineBreakChar c = false)
    (t : Str) (body0 : List Str)
    (hsl : pySplitlines content = t :: body0) :
    pySplitlines (rewrite_chunk_with_keywords content kws)
      = (if pyStrip t = [] then "Untitled".toList else pyStrip t)
        :: kwLineOf kws
        :: rstripLines ([] :: remove_leading_keyword_lines
              (remove_leading_keyword_lines body0 40) 60) := by
  have hdef : rewrite_chunk_with_keywords content kws
      = pyRstrip (List.intercalate ['\n']
          ((if pyStrip t = [] then "Untitled".toList else pyStrip t)
            :: kwLineOf kws :: []
            :: remove_leading_keyword_lines (remove_leading_keyword_lines body0 40) 60))
        ++ ['\n'] := by
    unfold rewrite_chunk_with_keywords
    rw [hsl]
    rfl
  rw [hdef]
  have hbody0nb : ∀ l ∈ body0, ∀ c ∈ l, isLineBreakChar c = false := by
    intro l hlmem c hc
    exact pySplitlines_no_break (s := content) l (by rw [hsl]; simp [hlmem]) c hc
  have htnb : ∀ c ∈ t, isLineBreakChar c = false := by
    intro c hc
    exact pySplitlines_no_break (s := content) t (by rw [hsl]; simp) c hc
  have hL := splitlines_rstrip_join
    ((if pyStrip t = [] then "Untitled".toList else pyStrip t)
      :: kwLineOf kws :: []
      :: remove_leading_keyword_lines (remove_leading_keyword_lines body0 40) 60)
    (by simp)
    (by
      intro l hlm c hc
      rcases List.mem_cons.mp hlm with rfl | hlm
      · by_cases hts : pyStrip t = []
        · rw [if_pos hts] at hc
          have hm : ∀ x ∈ "Untitled".toList, isLineBreakChar x = false := by decide
          exact hm c hc
        · rw [if_neg hts] at hc
          exact htnb c (pyStrip_subset hc)
      · rcases List.mem_cons.mp hlm with rfl | hlm
        · exact hkwsnb c hc
        · rcases List.mem_cons.mp hlm with rfl | hlm
          · cases hc
          · have hm1 : l ∈ remove_leading_keyword_lines body0 40 :=
              remove_leading_keyword_lines_subset l hlm
            exact hbody0nb l (remove_leading_keyword_lines_subset l hm1) c hc)
    ⟨kwLineOf kws, by simp, by rw [(kwLineOf_fixed kws).1]; exact (kwLineOf_fixed kws).2⟩
  rw [hL]
  rw [rstripLines_cons_of_ne (x :=
      (if pyStrip t = [] then "Untitled".toList else pyStrip t)) ?hne]
  case hne =>
    rw [rstripLines_cons_of_fixed (kwLineOf_fixed kws).1 (kwLineOf_fixed kws).2]
    simp
  rw [rstripLines_cons_of_fixed (kwLineOf_fixed kws).1 (kwLineOf_fixed kws).2]

theorem literal_false_of_not_kw {l : Str} (h : isKwLine l = false) :
    "keywords:".toList.isPrefixOf (pyLower l) = false := by
  cases hx : "keywords:".toList.isPrefixOf (pyLower l)
  · rfl
  · rw [literal_kw_imp hx] at h
    exact absurd h (by simp)

theorem takeWhile_blankOrKw_of_no_kw_head {body : List Str}
    (h : ∀ l t, body.dropWhile isBlankLine = l :: t → isKwLine l = false) :
    body.takeWhile blankOrKw = body.takeWhile isBlankLine := by
  induction body with
  | nil => rfl
  | cons l rest ih =>
    cases hb : isBlankLine l
    · have hdw : (l :: rest).dropWhile isBlankLine = l :: rest := by
        rw [List.dropWhile_cons, if_neg (by rw [hb]; simp)]
      have hk : isKwLine l = false := h l rest hdw
      rw [List.takeWhile_cons, List.takeWhile_cons,
        if_neg (by simp [blankOrKw, hb, hk]), if_neg (by rw [hb]; simp)]
    · have hdw : (l :: rest).dropWhile isBlankLine = rest.dropWhile isBlankLine := by
        rw [List.dropWhile_cons, if_pos hb]
      rw [List.takeWhile_cons, List.takeWhile_cons,
        if_pos (by simp [blankOrKw, hb] : blankOrKw l = true), if_pos hb]
      rw [ih (fun l2 t2 hlt => h l2 t2 (by rw [hdw]; exact hlt))]

theorem writer_body_kw_free (body0 : List Str)
    (hrun : (body0.takeWhile blankOrKw).length ≤ 40)
    (hkf : ∀ x ∈ body0.drop (body0.takeWhile blankOrKw).length, isKwLine x = false) :
    ∀ x ∈ remove_leading_keyword_lines (remove_leading_keyword_lines body0 40) 60,
      isKwLine x = false := by
  by_cases hcase : ∀ l t, body0.dropWhile isBlankLine = l :: t → isKwLine l = false
  · have h1 : remove_leading_keyword_lines body0 40 = body0 :=
      remove_leading_keyword_lines_noop body0 40 hcase
    have hall : ∀ x ∈ body0, isKwLine x = false := by
      intro x hx
      rw [← List.takeWhile_append_dropWhile (p := blankOrKw) (l := body0)] at hx
      rcases List.mem_append.mp hx with h2 | h2
      · rw [takeWhile_blankOrKw_of_no_kw_head hcase] at h2
        exact isBlank_not_kw (List.mem_takeWhile_imp h2)
      · rw [dropWhile_eq_drop_length] at h2
        exact hkf x h2
    rw [h1, rlkl_noop_of_kw_free hall]
    exact hall
  · push_neg at hcase
    obtain ⟨l0, t0, hlt, hkw⟩ := hcase
    have hkw2 : isKwLine l0 = true := by
      cases hx : isKwLine l0
      · exact absurd hx hkw
      · rfl
    have h1 := remove_leading_keyword_lines_removes body0 40 hrun ⟨l0, t0, hlt, hkw2⟩
    rw [h1, rlkl_noop_of_kw_free hkf]
    exact hkf

theorem rstripLines_kw_free {M : List Str} (h : ∀ x ∈ M, isKwLine x = false) :
    ∀ x ∈ rstripLines M, isKwLine x = false := by
  intro x hx
  rcases rstripLines_mem hx with h1 | ⟨y, hy, hxy⟩
  · exact h x h1
  · rw [hxy, isKw_pyRstrip]
    exact h y hy

def WriterInv (kws : List Str) (s : Str) : Prop :=
  ∃ T B, pySplitlines s = T :: kwLineOf kws :: B
    ∧ isKwLine T = false
    ∧ pyStrip T = T ∧ T ≠ []
    ∧ ∀ x ∈ B, isKwLine x = false

theorem writerInv_establish (kws : List Str) (content : Str)
    (hknb : ∀ c ∈ kwLineOf kws, isLineBreakChar c = false)
    (t : Str) (body0 : List Str)
    (hsl : pySplitlines content = t :: body0)
    (ht : isKwLine t = false)
    (hrun : (body0.takeWhile blankOrKw).length ≤ 40)
    (hkf : ∀ x ∈ body0.drop (body0.takeWhile blankOrKw).length, isKwLine x = false) :
    WriterInv kws (rewrite_chunk_with_keywords content kws) := by
  have hout := rewrite_output_splitlines kws content hknb t body0 hsl
  refine ⟨_, _, hout, ?_, ?_, ?_, ?_⟩
  · by_cases hts : pyStrip t = []
    · rw [if_pos hts]; decide
    · rw [if_neg hts, isKw_pyStrip]; exact ht
  · by_cases hts : pyStrip t = []
    · rw [if_pos hts]; decide
    · rw [if_neg hts]; exact pyStrip_idem t
  · by_cases hts : pyStrip t = []
    · rw [if_pos hts]; decide
    · rw [if_neg hts]; exact hts
  · apply rstripLines_kw_free
    intro x hx
    rcases List.mem_cons.mp hx with rfl | hx2
    · decide
    · exact writer_body_kw_free body0 hrun hkf x hx2

theorem writerInv_preserve (kws : List Str) (s : Str)
    (hknb : ∀ c ∈ kwLineOf kws, isLineBreakChar c = false)
    (hinv : WriterInv kws s) :
    WriterInv kws (rewrite_chunk_with_keywords s kws) := by
  obtain ⟨T, B, hsl, hTkw, hTs, hTne, hB⟩ := hinv
  have hout := rewrite_output_splitlines kws s hknb T (kwLineOf kws :: B) hsl
  obtain ⟨k, hk⟩ := rlkl_cons_kw (l := kwLineOf kws) (b := B)
    (kwLineOf_isKw kws) (by norm_num : (0:Nat) < 40)
  rw [hk] at hout
  have hdropkf : ∀ x ∈ B.drop k, isKwLine x = false :=
    fun x hx => hB x (List.drop_subset _ _ hx)
  rw [rlkl_noop_of_kw_free hdropkf] at hout
  rw [if_neg (by intro hc; rw [hTs] at hc; exact hTne hc)] at hout
  rw [hTs] at hout
  refine ⟨T, _, hout, hTkw, hTs, hTne, ?_⟩
  apply rstripLines_kw_free
  intro x hx
  rcases List.mem_cons.mp hx with rfl | hx2
  · decide
  · exact hdropkf x hx2

theorem writerInv_iterate (kws : List Str) (content : Str)
    (hknb : ∀ c ∈ kwLineOf kws, isLineBreakChar c = false)
    (t : Str) (body0 : List Str)
    (hsl : pySplitlines content = t :: body0)
    (ht : isKwLine t = false)
    (hrun : (body0.takeWhile blankOrKw).length ≤ 40)
    (hkf : ∀ x ∈ body0.drop (body0.takeWhile blankOrKw).length, isKwLine x = false) :
    ∀ n : Nat, WriterInv kws
      ((fun s => rewrite_chunk_with_keywords s kws)^[n + 1] content) := by
  intro n
  induction n with
  | zero =>
    rw [Function.iterate_one]
    exact writerInv_establish kws content hknb t body0 hsl ht hrun hkf
  | succ m ih =>
    rw [Function.iterate_succ_apply']
    exact writerInv_preserve kws _ hknb ih

/-- C2 counterexample: the literal claim fails. A chunk artifact whose body
contains a KEYWORDS line below a non-blank line (here "t\nx\nKEYWORDS: y\n")
keeps that line through a Writer pass, so the rewritten artifact has two lines
beginning with the case-insensitive prefix "keywords:", not exactly one: the
leading-lines stripper only removes KEYWORDS lines at the very top of the body. -/
theorem writer_single_keywords_line_counterexample :
    (pySplitlines (rewrite_chunk_with_keywords "t\nx\nKEYWORDS: y\n".toList
        ["foo".toList])).countP
      (fun l => "keywords:".toList.isPrefixOf (pyLower l)) ≠ 1 := by decide

/-- C2 (amended): for a chunk artifact whose title line is not itself a
KEYWORDS-pattern line and whose body's KEYWORDS lines all lie in the leading
blank-or-KEYWORDS run, with that run within the 40-line scan limit (this
includes the spec's scenario of two consecutive pre-existing KEYWORDS lines at
the top of the body), and keywords containing no line-break characters: after
any number n >= 1 of Writer passes, exactly one line of the artifact begins
with the case-insensitive prefix "keywords:", and it is line 2 (index 1),
equal to "KEYWORDS: " followed by the sanitized keywords joined by ", ". -/
theorem writer_single_keywords_line (kws : List Str) (content : Str) (n : Nat)
    (hkwnb : ∀ k ∈ kws, ∀ c ∈ k, isLineBreakChar c = false)
    (t : Str) (body0 : List Str)
    (hsl : pySplitlines content = t :: body0)
    (ht : isKwLine t = false)
    (hrun : (body0.takeWhile blankOrKw).length ≤ 40)
    (hkf : ∀ x ∈ body0.drop (body0.takeWhile blankOrKw).length, isKwLine x = false)
    (hn : 1 ≤ n) :
    (pySplitlines ((fun s => rewrite_chunk_with_keywords s kws)^[n] content)).countP
        (fun l => "keywords:".toList.isPrefixOf (pyLower l)) = 1
      ∧ (pySplitlines ((fun s => rewrite_chunk_with_keywords s kws)^[n] content))[1]?
          = some (kwLineOf kws) := by
  obtain ⟨m, rfl⟩ : ∃ m, n = m + 1 := ⟨n - 1, by omega⟩
  have hknb := kwLineOf_no_break hkwnb
  obtain ⟨T, B, hout, hTkw, _, _, hB⟩ :=
    writerInv_iterate kws content hknb t body0 hsl ht hrun hkf m
  rw [hout]
  constructor
  · have hB0 : B.countP (fun l => "keywords:".toList.isPrefixOf (pyLower l)) = 0 := by
      rw [List.countP_eq_zero]
      intro x hx
      rw [literal_false_of_not_kw (hB x hx)]
      simp
    simp only [List.countP_cons]
    rw [literal_false_of_not_kw hTkw, kwLineOf_literal, hB0]
    simp
  · simp

theorem writer_single_keywords_line_witness :
    (pySplitlines ((fun s => rewrite_chunk_with_keywords s ["foo".toList])^[1]
        "t\n\nx\n".toList)).countP
      (fun l => "keywords:".toList.isPrefixOf (pyLower l)) = 1
      ∧ (pySplitlines ((fun s => rewrite_chunk_with_keywords s ["foo".toList])^[1]
          "t\n\nx\n".toList))[1]?
        = some (kwLineOf ["foo".toList]) :=
  writer_single_keywords_line ["foo".toList] "t\n\nx\n".toList 1 (by decide)
    "t".toList [[], "x".toList] (by decide) (by decide) (by decide) (by decide)
    (by decide)
